import Mathlib

/-!
Verification of `src/crawlee/_utils/requests.py` (crawlee-python).

The Python module defines three pure functions — `unique_key_to_request_id`,
`normalize_url` and `compute_unique_key` — which are embedded here as
executable Lean functions over `List Char` (Python `str` values are sequences
of Unicode code points) and `List Nat` (byte strings, each element `< 256`).
The standard-library routines the module calls (`urllib.parse.urlparse`,
`parse_qsl`, `urlencode`, `hashlib.sha256`, `base64.b64encode`, `re.sub` with
pattern `(\+|\/|=)`, `str.strip`, `str.rstrip`, `str.lower`, `str.upper`,
`str.split`) are embedded as well, following the CPython implementations.

Modelling notes, for auditing the embedding against the source:

* `str.strip()` / `str.lower()` / `str.upper()` are modelled on the ASCII
  range (Python additionally handles non-ASCII whitespace and case
  mappings; every concrete input used below is ASCII).
* `urllib.parse` is modelled after CPython 3.11 (`urlsplit` with the
  WHATWG left-strip and TAB/CR/LF removal, the `uses_params` guard on the
  params split, and the `uses_netloc` guard in `urlunsplit`).
* the bracket-mismatch check of `urlsplit` (`raise ValueError("Invalid
  IPv6 URL")`) is modelled as the `Except.error` case; the further
  CPython ≥ 3.11 `ValueError`s for invalid bracketed hosts and for
  non-ASCII netlocs needing NFKC checks (`_check_bracketed_host`,
  `_checknetloc`) are not modelled — they only add more inputs on which
  `normalize_url` raises and `compute_unique_key` falls back.
* invalid UTF-8 byte sequences produced by percent-decoding are replaced
  with U+FFFD; the exact number of replacement characters CPython emits for
  a malformed multi-byte sequence can differ (nothing below exercises this).
-/

namespace Crawlee

/-! ## Python string helpers -/

/-- ASCII whitespace as stripped by `str.strip()` (space, TAB, LF, CR, VT, FF). -/
def isPySpace (c : Char) : Bool :=
  c.toNat == 32 || c.toNat == 9 || c.toNat == 10 || c.toNat == 13 ||
    c.toNat == 11 || c.toNat == 12

/-- Python `str.strip()` (ASCII range). -/
def pyStrip (l : List Char) : List Char :=
  ((l.dropWhile isPySpace).reverse.dropWhile isPySpace).reverse

/-- Python `str.lower()` on one character (ASCII range). -/
def pyLowerChar (c : Char) : Char :=
  if 65 ≤ c.toNat ∧ c.toNat ≤ 90 then Char.ofNat (c.toNat + 32) else c

/-- Python `str.lower()` (ASCII range). -/
def pyLower (l : List Char) : List Char := l.map pyLowerChar

/-- Python `str.upper()` on one character (ASCII range). -/
def pyUpperChar (c : Char) : Char :=
  if 97 ≤ c.toNat ∧ c.toNat ≤ 122 then Char.ofNat (c.toNat - 32) else c

/-- Python `str.upper()` (ASCII range). -/
def pyUpper (l : List Char) : List Char := l.map pyUpperChar

/-- Python `str.rstrip('/')`: remove every trailing `'/'`. -/
def pyRstripSlash (l : List Char) : List Char :=
  (l.reverse.dropWhile (fun c => c == '/')).reverse

/-- Split a list at the first occurrence of `c`; `none` if `c` does not occur.
Used to model `str.split(c, 1)` and `c in s` membership tests. -/
def splitOnFirst (c : Char) : List Char → Option (List Char × List Char)
  | [] => none
  | x :: xs =>
    if x = c then some ([], xs)
    else (splitOnFirst c xs).map (fun p => (x :: p.1, p.2))

/-- Python `str.split(sep)` for a one-character separator (`"".split` gives
`[""]`, empty segments are kept). -/
def pySplit (c : Char) : List Char → List (List Char)
  | [] => [[]]
  | x :: xs =>
    if x = c then [] :: pySplit c xs
    else
      match pySplit c xs with
      | [] => [[x]]
      | h :: t => (x :: h) :: t

/-! ## UTF-8 (`str.encode('utf-8')` / `bytes.decode('utf-8', errors='replace')`) -/

/-- UTF-8 encoding of one code point. -/
def utf8EncodeChar (c : Char) : List Nat :=
  let n := c.toNat
  if n < 128 then [n]
  else if n < 2048 then [192 + n / 64, 128 + n % 64]
  else if n < 65536 then [224 + n / 4096, 128 + n / 64 % 64, 128 + n % 64]
  else [240 + n / 262144, 128 + n / 4096 % 64, 128 + n / 64 % 64, 128 + n % 64]

/-- UTF-8 encoding of a string. -/
def utf8Encode (l : List Char) : List Nat := l.flatMap utf8EncodeChar

/-- Is `b` a UTF-8 continuation byte (`10xxxxxx`)? -/
def isUtf8Cont (b : Nat) : Bool := 128 ≤ b && b < 192

/-- Validity of a 3-byte UTF-8 sequence (excludes overlong forms and
surrogates). -/
def utf8Valid3 (b b2 b3 : Nat) : Bool :=
  isUtf8Cont b2 && isUtf8Cont b3 &&
    !(b == 224 && b2 < 160) && !(b == 237 && 160 ≤ b2)

/-- Validity of a 4-byte UTF-8 sequence (excludes overlong forms and
code points above U+10FFFF). -/
def utf8Valid4 (b b2 b3 b4 : Nat) : Bool :=
  isUtf8Cont b2 && isUtf8Cont b3 && isUtf8Cont b4 &&
    !(b == 240 && b2 < 144) && !(b == 244 && 144 ≤ b2) && b ≤ 244

/-- UTF-8 decoding with replacement of invalid sequences by U+FFFD
(`errors='replace'`). -/
def utf8Decode : List Nat → List Char
  | [] => []
  | b :: rest =>
    if b < 128 then Char.ofNat b :: utf8Decode rest
    else if 194 ≤ b && b ≤ 223 then
      match rest with
      | b2 :: rest2 =>
        if isUtf8Cont b2 then
          Char.ofNat ((b - 192) * 64 + (b2 - 128)) :: utf8Decode rest2
        else '�' :: utf8Decode (b2 :: rest2)
      | [] => ['�']
    else if 224 ≤ b && b ≤ 239 then
      match rest with
      | b2 :: b3 :: rest3 =>
        if utf8Valid3 b b2 b3 then
          Char.ofNat ((b - 224) * 4096 + (b2 - 128) * 64 + (b3 - 128)) :: utf8Decode rest3
        else '�' :: utf8Decode (b2 :: b3 :: rest3)
      | [b2] => '�' :: utf8Decode [b2]
      | [] => ['�']
    else if 240 ≤ b && b ≤ 244 then
      match rest with
      | b2 :: b3 :: b4 :: rest4 =>
        if utf8Valid4 b b2 b3 b4 then
          Char.ofNat ((b - 240) * 262144 + (b2 - 128) * 4096 + (b3 - 128) * 64 + (b4 - 128)) ::
            utf8Decode rest4
        else '�' :: utf8Decode (b2 :: b3 :: b4 :: rest4)
      | [b2, b3] => '�' :: utf8Decode [b2, b3]
      | [b2] => '�' :: utf8Decode [b2]
      | [] => ['�']
    else '�' :: utf8Decode rest
termination_by l => l.length
decreasing_by all_goals simp_all [List.length_cons] <;> omega

/-! ## `urllib.parse` percent-coding -/

/-- Value of a hexadecimal digit character, if any. -/
def hexDigitVal (c : Char) : Option Nat :=
  if 48 ≤ c.toNat ∧ c.toNat ≤ 57 then some (c.toNat - 48)
  else if 65 ≤ c.toNat ∧ c.toNat ≤ 70 then some (c.toNat - 55)
  else if 97 ≤ c.toNat ∧ c.toNat ≤ 102 then some (c.toNat - 87)
  else none

/-- Core loop of `urllib.parse.unquote`: maximal runs of ASCII characters and
`%XX` escapes are collected into one byte run and decoded as UTF-8 with
`errors='replace'`; non-ASCII characters pass through unchanged and terminate
the current run; a `%` not followed by two hex digits stays literal.  `acc`
holds the current byte run, reversed. -/
def unquoteAux : List Char → List Nat → List Char
  | [], acc => utf8Decode acc.reverse
  | '%' :: rest, acc =>
    (match rest with
     | h1 :: h2 :: rest2 =>
       match hexDigitVal h1, hexDigitVal h2 with
       | some d1, some d2 => unquoteAux rest2 ((16 * d1 + d2) :: acc)
       | _, _ => unquoteAux (h1 :: h2 :: rest2) (37 :: acc)
     | [h1] => unquoteAux [h1] (37 :: acc)
     | [] => utf8Decode (37 :: acc).reverse)
  | c :: rest, acc =>
    if c.toNat < 128 then unquoteAux rest (c.toNat :: acc)
    else utf8Decode acc.reverse ++ c :: unquoteAux rest []
termination_by l _ => l.length
decreasing_by all_goals simp_all [List.length_cons] <;> omega

/-- Python `urllib.parse.unquote(s)` (with the `if '%' not in string: return
string` fast path of CPython). -/
def pyUnquote (l : List Char) : List Char :=
  if (splitOnFirst '%' l).isNone then l else unquoteAux l []

/-- Python `urllib.parse.unquote_plus(s)`: `+` becomes a space, then unquote. -/
def unquotePlus (l : List Char) : List Char :=
  pyUnquote (l.map (fun c => if c = '+' then ' ' else c))

/-- Bytes never percent-escaped by `urllib.parse.quote`: ASCII alphanumerics
and `_ . - ~` (CPython's `_ALWAYS_SAFE`). -/
def alwaysSafeByte (b : Nat) : Bool :=
  (48 ≤ b && b ≤ 57) || (65 ≤ b && b ≤ 90) || (97 ≤ b && b ≤ 122) ||
    b == 95 || b == 46 || b == 45 || b == 126

/-- Upper-case hexadecimal digit. -/
def hexUpperDigit (n : Nat) : Char := "0123456789ABCDEF".data.getD n '0'

/-- Lower-case hexadecimal digit. -/
def hexLowerDigit (n : Nat) : Char := "0123456789abcdef".data.getD n '0'

/-- Quote one byte: keep it if safe, else emit `%XX` with upper-case hex. -/
def quoteByte (safe : List Nat) (b : Nat) : List Char :=
  if alwaysSafeByte b || safe.contains b then [Char.ofNat b]
  else ['%', hexUpperDigit (b / 16), hexUpperDigit (b % 16)]

/-- Python `urllib.parse.quote(s, safe)`: UTF-8 encode, then escape each
unsafe byte. -/
def pyQuote (safe : List Nat) (s : List Char) : List Char :=
  (utf8Encode s).flatMap (quoteByte safe)

/-- Python `urllib.parse.quote_plus(s, safe='')`: like `quote` but spaces
become `+`. -/
def quote_plus (s : List Char) : List Char :=
  if s.contains ' ' then (pyQuote [32] s).map (fun c => if c = ' ' then '+' else c)
  else pyQuote [] s

/-! ## `parse_qsl`, `urlencode`, `dict`, `sorted` -/

/-- Python `urllib.parse.parse_qsl(qs)` with default arguments
(`keep_blank_values=False`, `strict_parsing=False`, `separator='&'`):
split on `&`, drop empty fields and fields without `=` or with an empty
value, percent-decode names and values. -/
def parse_qsl (qs : List Char) : List (List Char × List Char) :=
  (pySplit '&' qs).filterMap fun nv =>
    if nv.isEmpty then none
    else
      match splitOnFirst '=' nv with
      | none => none
      | some (n, v) => if v.isEmpty then none else some (unquotePlus n, unquotePlus v)

/-- Python `urllib.parse.urlencode(pairs)` (default `quote_via=quote_plus`). -/
def urlencode (pairs : List (List Char × List Char)) : List Char :=
  List.intercalate ['&'] (pairs.map fun kv => quote_plus kv.1 ++ '=' :: quote_plus kv.2)

/-- One step of Python `dict(...)` construction: overwrite the value if the
key is present (keeping its position), else append the pair. -/
def dictUpsert (m : List (List Char × List Char)) (kv : List Char × List Char) :
    List (List Char × List Char) :=
  if m.any (fun e => decide (e.1 = kv.1)) then
    m.map (fun e => if e.1 = kv.1 then (e.1, kv.2) else e)
  else m ++ [kv]

/-- Python `dict(pairs)` as an insertion-ordered association list:
first-occurrence position, last value wins. -/
def pyDict (l : List (List Char × List Char)) : List (List Char × List Char) :=
  l.foldl dictUpsert []

/-- Python `d[k]` on an association list (the module only uses it on keys
known to be present; the default is never reached there). -/
def lookupD (k : List Char) : List (List Char × List Char) → List Char
  | [] => []
  | e :: rest => if e.1 = k then e.2 else lookupD k rest

/-- Python string comparison `a <= b` (code-point lexicographic). -/
def lexLe : List Char → List Char → Bool
  | [], _ => true
  | _ :: _, [] => false
  | a :: as, b :: bs => decide (a.toNat < b.toNat) || (a.toNat == b.toNat && lexLe as bs)

/-- `lexLe` as a relation, for `List.insertionSort`. -/
def lexLeP (a b : List Char) : Prop := lexLe a b = true

instance : DecidableRel lexLeP := fun a b => inferInstanceAs (Decidable (lexLe a b = true))

/-- Python `sorted(...)` on a list of strings.  Python's sort is stable, and
insertion sort is stable, so they agree; the module only sorts lists of
pairwise-distinct `dict` keys, where every stable sort returns the unique
sorted arrangement. -/
def pySorted (l : List (List Char)) : List (List Char) := List.insertionSort lexLeP l

/-! ## `urllib.parse.urlsplit` / `urlunsplit` -/

/-- The five components returned by `urlsplit`. -/
structure SplitResult where
  scheme : List Char
  netloc : List Char
  path : List Char
  query : List Char
  fragment : List Char

/-- Characters allowed in a URL scheme (CPython `scheme_chars`). -/
def schemeChars : List Char :=
  "abcdefghijklmnopqrstuvwxyzABCDEFGHIJKLMNOPQRSTUVWXYZ0123456789+-.".data

/-- Delimiters that terminate the netloc (CPython `_splitnetloc`). -/
def isNetlocDelim (c : Char) : Bool := c == '/' || c == '?' || c == '#'

/-- CPython's unbalanced-bracket test on the netloc; `True` makes `urlsplit`
raise `ValueError("Invalid IPv6 URL")`. -/
def bracketMismatch (nl : List Char) : Bool :=
  (nl.contains '[' && !nl.contains ']') || (nl.contains ']' && !nl.contains '[')

/-- The scheme-detection step of `urlsplit`: split at the first `:` when the
prefix is a valid scheme (non-empty, ASCII letter first, `scheme_chars`
only); the scheme is lower-cased. -/
def splitScheme (url : List Char) : List Char × List Char :=
  match splitOnFirst ':' url with
  | some (pre, post) =>
    if pre ≠ [] ∧ (pre.headD ' ').isAlpha ∧ pre.all (fun c => schemeChars.contains c) then
      (pyLower pre, post)
    else ([], url)
  | none => ([], url)

/-- The `_splitnetloc` step of `urlsplit`: after a leading `//`, the netloc
runs up to the first `/`, `?` or `#`. -/
def splitNetloc (url : List Char) : List Char × List Char :=
  if url.take 2 = ['/', '/'] then
    ((url.drop 2).takeWhile (fun c => !isNetlocDelim c),
     (url.drop 2).dropWhile (fun c => !isNetlocDelim c))
  else ([], url)

/-- The fragment split of `urlsplit`: `url.split('#', 1)` when `#` occurs. -/
def splitFragment (url : List Char) : List Char × List Char :=
  match splitOnFirst '#' url with
  | some (a, b) => (a, b)
  | none => (url, [])

/-- The query split of `urlsplit`: `url.split('?', 1)` when `?` occurs. -/
def splitQuery (url : List Char) : List Char × List Char :=
  match splitOnFirst '?' url with
  | some (a, b) => (a, b)
  | none => (url, [])

/-- Python `urllib.parse.urlsplit(url)` (default `scheme=''`,
`allow_fragments=True`): left-strip C0 controls and space, remove TAB/CR/LF,
split off a valid scheme at the first `:`, take the netloc after a leading
`//` up to `/`, `?` or `#` (raising on mismatched brackets), then split the
fragment at the first `#` and the query at the first `?`. -/
def urlsplit (urlIn : List Char) : Except String SplitResult :=
  let url0 := urlIn.dropWhile fun c => c.toNat ≤ 32
  let url1 := url0.filter fun c => !(c == '\t' || c == '\r' || c == '\n')
  let sp := splitScheme url1
  let np := splitNetloc sp.2
  if bracketMismatch np.1 then .error "Invalid IPv6 URL"
  else
    let fp := splitFragment np.2
    let qp := splitQuery fp.1
    .ok ⟨sp.1, np.1, qp.1, qp.2, fp.2⟩

/-- The six components of `urllib.parse.ParseResult`. -/
structure ParseResult where
  scheme : List Char
  netloc : List Char
  path : List Char
  params : List Char
  query : List Char
  fragment : List Char

/-- CPython `uses_params`: schemes for which `urlparse` splits `;params`
off the last path segment (the empty scheme is included). -/
def usesParams : List (List Char) :=
  [[], "ftp".data, "hdl".data, "prospero".data, "http".data, "imap".data,
   "https".data, "shttp".data, "rtsp".data, "rtsps".data, "rtspu".data,
   "sip".data, "sips".data, "mms".data, "sftp".data, "tel".data]

/-- CPython `uses_netloc`: schemes for which `urlunsplit` re-inserts `//`
even when the netloc is empty. -/
def usesNetloc : List (List Char) :=
  [[], "ftp".data, "http".data, "gopher".data, "nntp".data, "telnet".data,
   "imap".data, "wais".data, "file".data, "mms".data, "https".data,
   "shttp".data, "snews".data, "prospero".data, "rtsp".data, "rtsps".data,
   "rtspu".data, "rsync".data, "svn".data, "svn+ssh".data, "sftp".data,
   "nfs".data, "git".data, "git+ssh".data, "ws".data, "wss".data]

/-- CPython `_splitparams(url)`: split `;params` off the last path segment
(only called when `;` occurs in `url`). -/
def pySplitparams (url : List Char) : List Char × List Char :=
  if url.contains '/' then
    let seg := (url.reverse.takeWhile (fun c => c != '/')).reverse
    match splitOnFirst ';' seg with
    | none => (url, [])
    | some (a, b) => (url.take (url.length - seg.length) ++ a, b)
  else
    match splitOnFirst ';' url with
    | some (a, b) => (a, b)
    | none => (url, [])

/-- Python `urllib.parse.urlparse(url)`: `urlsplit`, then split the params
component when the scheme uses params and the path contains `;`. -/
def pyUrlparse (url : List Char) : Except String ParseResult :=
  match urlsplit url with
  | .error e => .error e
  | .ok p =>
    if usesParams.contains p.scheme ∧ p.path.contains ';' then
      let pp := pySplitparams p.path
      .ok ⟨p.scheme, p.netloc, pp.1, pp.2, p.query, p.fragment⟩
    else .ok ⟨p.scheme, p.netloc, p.path, [], p.query, p.fragment⟩

/-- Python `urllib.parse.urlunsplit` (CPython 3.11). -/
def urlunsplit (scheme netloc path query fragment : List Char) : List Char :=
  let u1 :=
    if netloc ≠ [] ∨ (scheme ≠ [] ∧ usesNetloc.contains scheme ∧ path.take 2 ≠ ['/', '/']) then
      '/' :: '/' :: netloc ++ (if path ≠ [] ∧ path.headD '/' ≠ '/' then '/' :: path else path)
    else path
  let u2 := if scheme ≠ [] then scheme ++ ':' :: u1 else u1
  let u3 := if query ≠ [] then u2 ++ '?' :: query else u2
  if fragment ≠ [] then u3 ++ '#' :: fragment else u3

/-- Python `urllib.parse.urlunparse` (what `ParseResult.geturl()` calls):
re-join `;params` to the path and `urlunsplit`. -/
def urlunparse (scheme netloc path params query fragment : List Char) : List Char :=
  urlunsplit scheme netloc (if params ≠ [] then path ++ ';' :: params else path)
    query fragment

/-! ## `normalize_url` -/

/-- The `sorted_keys` / `[(k, search_params[k]) for k in sorted_keys]` step
of `normalize_url`: sort the keys, and pair each with its `dict` value. -/
def canonPairs (l : List (List Char × List Char)) : List (List Char × List Char) :=
  (pySorted (l.map Prod.fst)).map fun k => (k, lookupD k l)

/-- The query-rebuilding pipeline inside `normalize_url`:
`search_params = dict(parse_qsl(query))`, drop `utm_`-prefixed keys, sort the
remaining keys, re-encode the key-value pairs with `urlencode`. -/
def codeSortedQuery (q : List Char) : List Char :=
  let searchParams := (pyDict (parse_qsl q)).filter
      fun kv => !(['u', 't', 'm', '_'].isPrefixOf kv.1)
  urlencode (canonPairs searchParams)

/-- Reassembly step of `normalize_url`: `_replace` the query and the
`rstrip('/')`-ed path (params, scheme, netloc, fragment unchanged),
`geturl()`, lower-case everything, and drop the fragment with
`split('#')[0]` unless it is kept. -/
def normalizeAssemble (p : ParseResult) (keepUrlFragment : Bool) : List Char :=
  let newUrl := pyLower (urlunparse p.scheme p.netloc (pyRstripSlash p.path)
      p.params (codeSortedQuery p.query) p.fragment)
  if keepUrlFragment then newUrl else (pySplit '#' newUrl).headD []

/-- Python `normalize_url(url, keep_url_fragment)` over character lists.  The
`Except.error` case is the `ValueError` that `urlsplit` can raise on
mismatched brackets. -/
def normalize_url_chars (url : List Char) (keepUrlFragment : Bool) :
    Except String (List Char) :=
  match pyUrlparse (pyStrip url) with
  | .error e => .error e
  | .ok p => .ok (normalizeAssemble p keepUrlFragment)

/-- Python `normalize_url` from `crawlee._utils.requests`. -/
def normalize_url (url : String) (keep_url_fragment : Bool) : Except String String :=
  (normalize_url_chars url.data keep_url_fragment).map fun l => ⟨l⟩

/-! ## SHA-256 (`hashlib.sha256(...).digest()`) and base64 -/

/-- Truncate to 32 bits. -/
def w32 (n : Nat) : Nat := n % 4294967296

/-- Rotate a 32-bit word right by `n`. -/
def rotr32 (n x : Nat) : Nat := x / 2 ^ n + x % 2 ^ n * 2 ^ (32 - n)

/-- SHA-256 `Ch` function (the complement is taken within 32 bits). -/
def shaCh (x y z : Nat) : Nat := (x &&& y) ^^^ ((4294967295 - x) &&& z)

/-- SHA-256 `Maj` function. -/
def shaMaj (x y z : Nat) : Nat := (x &&& y) ^^^ (x &&& z) ^^^ (y &&& z)

def bigSigma0 (x : Nat) : Nat := rotr32 2 x ^^^ rotr32 13 x ^^^ rotr32 22 x

def bigSigma1 (x : Nat) : Nat := rotr32 6 x ^^^ rotr32 11 x ^^^ rotr32 25 x

def smallSigma0 (x : Nat) : Nat := rotr32 7 x ^^^ rotr32 18 x ^^^ x / 8

def smallSigma1 (x : Nat) : Nat := rotr32 17 x ^^^ rotr32 19 x ^^^ x / 1024

/-- SHA-256 round constants. -/
def shaK : List Nat :=
  [1116352408, 1899447441, 3049323471, 3921009573, 961987163,
   1508970993, 2453635748, 2870763221, 3624381080, 310598401,
   607225278, 1426881987, 1925078388, 2162078206, 2614888103,
   3248222580, 3835390401, 4022224774, 264347078, 604807628,
   770255983, 1249150122, 1555081692, 1996064986, 2554220882,
   2821834349, 2952996808, 3210313671, 3336571891, 3584528711,
   113926993, 338241895, 666307205, 773529912, 1294757372,
   1396182291, 1695183700, 1986661051, 2177026350, 2456956037,
   2730485921, 2820302411, 3259730800, 3345764771, 3516065817,
   3600352804, 4094571909, 275423344, 430227734, 506948616,
   659060556, 883997877, 958139571, 1322822218, 1537002063,
   1747873779, 1955562222, 2024104815, 2227730452, 2361852424,
   2428436474, 2756734187, 3204031479, 3329325298]

/-- SHA-256 initial hash value. -/
def shaH0 : List Nat :=
  [1779033703, 3144134277, 1013904242, 2773480762,
   1359893119, 2600822924, 528734635, 1541459225]

/-- `k` bytes of `n`, big-endian. -/
def beBytes (k : Nat) (n : Nat) : List Nat :=
  match k with
  | 0 => []
  | k' + 1 => beBytes k' (n / 256) ++ [n % 256]

/-- SHA-256 message padding: append `0x80`, zeros to 56 mod 64, then the
bit length as 8 big-endian bytes. -/
def shaPad (msg : List Nat) : List Nat :=
  let len := msg.length
  msg ++ 128 :: List.replicate ((55 + 64 - len % 64) % 64) 0 ++ beBytes 8 (8 * len)

/-- Split a byte list into 64-byte blocks (fuel-based structural recursion;
the fuel `l.length` always suffices since each step consumes at least one
element). -/
def chunks64Go : Nat → List Nat → List (List Nat)
  | 0, _ => []
  | _, [] => []
  | fuel + 1, a :: l => ((a :: l).take 64) :: chunks64Go fuel ((a :: l).drop 64)

/-- Split a byte list into 64-byte blocks. -/
def chunks64 (l : List Nat) : List (List Nat) := chunks64Go l.length l

/-- Parse a 64-byte block as 16 big-endian 32-bit words. -/
def words16 : List Nat → List Nat
  | b0 :: b1 :: b2 :: b3 :: rest =>
    (b0 * 16777216 + b1 * 65536 + b2 * 256 + b3) :: words16 rest
  | _ => []

/-- Extend the 16-word schedule by `n` further words. -/
def shaSchedule (w : List Nat) : Nat → List Nat
  | 0 => w
  | n + 1 =>
    let p := shaSchedule w n
    p ++ [w32 (smallSigma1 (p.getD (p.length - 2) 0) + p.getD (p.length - 7) 0 +
      smallSigma0 (p.getD (p.length - 15) 0) + p.getD (p.length - 16) 0)]

/-- One SHA-256 compression round; the state is the list `[a,b,c,d,e,f,g,h]`. -/
def shaRound (st : List Nat) (kw : Nat × Nat) : List Nat :=
  match st with
  | [a, b, c, d, e, f, g, hh] =>
    let t1 := w32 (hh + bigSigma1 e + shaCh e f g + kw.1 + kw.2)
    let t2 := w32 (bigSigma0 a + shaMaj a b c)
    [w32 (t1 + t2), a, b, c, w32 (d + t1), e, f, g]
  | _ => st

/-- Compress one 64-byte block into the running hash (8 words). -/
def shaCompress (h : List Nat) (block : List Nat) : List Nat :=
  let w := shaSchedule (words16 block) 48
  let st := (shaK.zip w).foldl shaRound h
  (List.range 8).map fun i => w32 (h.getD i 0 + st.getD i 0)

/-- `hashlib.sha256(msg).digest()` as a list of 32 bytes. -/
def sha256 (msg : List Nat) : List Nat :=
  ((chunks64 (shaPad msg)).foldl shaCompress shaH0).flatMap (beBytes 4)

/-- The standard base64 alphabet. -/
def b64Alphabet : List Char :=
  "ABCDEFGHIJKLMNOPQRSTUVWXYZabcdefghijklmnopqrstuvwxyz0123456789+/".data

/-- `base64.b64encode` (with `=` padding), as characters. -/
def b64encode : List Nat → List Char
  | [] => []
  | [a] => [b64Alphabet.getD (a / 4) 'A', b64Alphabet.getD (a % 4 * 16) 'A', '=', '=']
  | [a, b] =>
    [b64Alphabet.getD (a / 4) 'A', b64Alphabet.getD (a % 4 * 16 + b / 16) 'A',
     b64Alphabet.getD (b % 16 * 4) 'A', '=']
  | a :: b :: c :: rest =>
    b64Alphabet.getD (a / 4) 'A' :: b64Alphabet.getD (a % 4 * 16 + b / 16) 'A' ::
      b64Alphabet.getD (b % 16 * 4 + c / 64) 'A' :: b64Alphabet.getD (c % 64) 'A' ::
      b64encode rest

/-! ## `unique_key_to_request_id` -/

/-- Python `unique_key_to_request_id(unique_key, request_id_length)`:
SHA-256 the UTF-8 key, base64-encode, delete `+`, `/`, `=` (the `re.sub`),
truncate.  The Python default for `request_id_length` is 15. -/
def unique_key_to_request_id (unique_key : String) (request_id_length : Nat) : String :=
  let hashed_key := sha256 (utf8Encode unique_key.data)
  let base64_encoded := b64encode hashed_key
  let url_safe_key := base64_encoded.filter fun c => !(c == '+' || c == '/' || c == '=')
  ⟨url_safe_key.take request_id_length⟩

/-! ## `compute_unique_key` -/

/-- Modelled from the spec: the external short-hash collaborator
`compute_short_hash` (`crawlee._utils.crypto` is not part of this excerpt).
The spec requires a deterministic, fixed-length, URL-safe digest of the
payload bytes, e.g. the first N hex characters of a SHA-256 digest; we take
the first 8 lower-case hex characters of SHA-256. -/
def compute_short_hash (data : List Nat) : String :=
  ⟨((sha256 data).flatMap fun b => [hexLowerDigit (b / 16), hexLowerDigit (b % 16)]).take 8⟩

/-- Python `HttpPayload` at runtime: `str | bytes`. -/
inductive HttpPayload where
  | str (s : String)
  | bytes (b : List Nat)

/-- Python truthiness of a payload (`if ... and payload:`). -/
def payloadTruthy : HttpPayload → Bool
  | .str s => !s.isEmpty
  | .bytes b => !b.isEmpty

/-- `payload.encode('utf-8')` for strings, identity for bytes. -/
def payloadBytes : HttpPayload → List Nat
  | .str s => utf8Encode s.data
  | .bytes b => b

/-- Python `headers[h]` combined with the `h in headers` guard:
first-match lookup in the association list (a `dict` has unique keys). -/
def lookupHeader (h : String) : List (String × String) → Option String
  | [] => none
  | e :: rest => if e.1 = h then some e.2 else lookupHeader h rest

/-- The `try: normalized_url = normalize_url(...) except: normalized_url = url`
block of `compute_unique_key`: the normalized URL, or the raw unmodified URL
when normalization raises. -/
def normalizedUrlOrRaw (url : String) (keep_url_fragment : Bool) : String :=
  match normalize_url url keep_url_fragment with
  | .ok u => u
  | .error _ => url

/-- Python `compute_unique_key(url, method, payload, *, keep_url_fragment,
use_extended_unique_key, headers, whitelisted_headers)`.  The `try/except`
around `normalize_url` is `normalizedUrlOrRaw`.  Python defaults:
`method='GET'`, `payload=None`, flags `False`, `headers=None`,
`whitelisted_headers=None`. -/
def compute_unique_key (url : String) (method : String) (payload : Option HttpPayload)
    (keep_url_fragment : Bool) (use_extended_unique_key : Bool)
    (headers : Option (List (String × String))) (whitelisted_headers : Option (List String)) :
    String :=
  let normalized_url := normalizedUrlOrRaw url keep_url_fragment
  let normalized_method := String.mk (pyUpper method.data)
  let extended_key :=
    match payload with
    | some pl =>
      if use_extended_unique_key && payloadTruthy pl then
        normalized_method ++ "(" ++ compute_short_hash (payloadBytes pl) ++ "):" ++
          normalized_url
      else normalized_url
    | none => normalized_url
  match headers, whitelisted_headers with
  | some hs, some wl =>
    if hs.isEmpty || wl.isEmpty then extended_key
    else
      let header_parts := wl.filterMap fun h => (lookupHeader h hs).map fun v => h ++ ":" ++ v
      extended_key ++ "|" ++ String.intercalate "|" header_parts
  | _, _ => extended_key

/-! ## Derived definitions used in the claim statements -/

/-- Is the extended-key branch of `compute_unique_key` active?
(`if use_extended_unique_key and payload:` — `None` and empty payloads are
falsy.) -/
def extendedActive (payload : Option HttpPayload) (useExtendedUniqueKey : Bool) : Bool :=
  useExtendedUniqueKey &&
    match payload with
    | some pl => payloadTruthy pl
    | none => false

/-- Spec §4.1 step 3 as written ("preserving only the **last** occurrence if
a key repeats"): a pair is kept iff its key does not occur again later. -/
def specLastWins : List (List Char × List Char) → List (List Char × List Char)
  | [] => []
  | kv :: rest =>
    if (rest.map Prod.fst).contains kv.1 then specLastWins rest
    else kv :: specLastWins rest

/-- Order on pairs by their key, for sorting pairs as in spec §4.1 step 4. -/
def pairLe (a b : List Char × List Char) : Prop := lexLeP a.1 b.1

instance : DecidableRel pairLe := fun a b => inferInstanceAs (Decidable (lexLe a.1 b.1 = true))

/-- Spec §4.1 steps 3–4 as written: decode into pairs, keep only last
occurrences, discard pairs whose key starts with `utm_`, sort the remaining
pairs by key, re-encode canonically. -/
def specCanonicalQuery (q : List Char) : List Char :=
  let pairs := parse_qsl q
  let kept := (specLastWins pairs).filter fun kv => !(['u', 't', 'm', '_'].isPrefixOf kv.1)
  urlencode (List.insertionSort pairLe kept)

/-- The value of the last pair with key `k` (the value `dict(pairs)` and the
spec's "last occurrence wins" both select). -/
def lastVal (k : List Char) (l : List (List Char × List Char)) : List Char :=
  lookupD k l.reverse

/-- Lower-case ASCII letters and digits: the alphabet of the restricted URL
family used for the idempotence analysis. -/
def plainChar (c : Char) : Prop :=
  (97 ≤ c.toNat ∧ c.toNat ≤ 122) ∨ (48 ≤ c.toNat ∧ c.toNat ≤ 57)

instance : DecidablePred plainChar := fun _ => inferInstanceAs (Decidable (_ ∨ _))

/-- Characters allowed in the host of the restricted family. -/
def hostChar (c : Char) : Prop := plainChar c ∨ c = '.'

instance : DecidablePred hostChar := fun _ => inferInstanceAs (Decidable (_ ∨ _))

/-- Characters allowed in the path of the restricted family. -/
def pathChar (c : Char) : Prop := plainChar c ∨ c = '/' ∨ c = '.'

instance : DecidablePred pathChar := fun _ => inferInstanceAs (Decidable (_ ∨ _))

/-- A well-formed host for the restricted family. -/
def goodHost (host : List Char) : Prop := host ≠ [] ∧ ∀ c ∈ host, hostChar c

instance : DecidablePred goodHost := fun _ => inferInstanceAs (Decidable (_ ∧ _))

/-- A well-formed path for the restricted family: empty or starting with
`/`, built from path characters. -/
def goodPath (path : List Char) : Prop :=
  (path = [] ∨ path.head? = some '/') ∧ ∀ c ∈ path, pathChar c

instance : DecidablePred goodPath := fun _ => inferInstanceAs (Decidable (_ ∧ _))

/-- Well-formed query pairs for the restricted family: pairwise-distinct
non-empty keys, non-empty values, all plain characters. -/
def goodPairs (pairs : List (List Char × List Char)) : Prop :=
  (pairs.map Prod.fst).Nodup ∧
    ∀ kv ∈ pairs, kv.1 ≠ [] ∧ kv.2 ≠ [] ∧ (∀ c ∈ kv.1, plainChar c) ∧ ∀ c ∈ kv.2, plainChar c

instance : DecidablePred goodPairs := fun _ => inferInstanceAs (Decidable (_ ∧ _))

/-- All characters a restricted-family URL (or its normalized form) can
contain. -/
def urlChar (c : Char) : Prop :=
  plainChar c ∨ c = '.' ∨ c = '/' ∨ c = ':' ∨ c = '?' ∨ c = '&' ∨ c = '='

instance : DecidablePred urlChar := fun _ => inferInstanceAs (Decidable (_ ∨ _))

/-- Plain (escape-free) rendering of query pairs: `k=v` joined by `&`. -/
def encodePairsPlain : List (List Char × List Char) → List Char
  | [] => []
  | [kv] => kv.1 ++ '=' :: kv.2
  | kv :: rest => kv.1 ++ '=' :: kv.2 ++ '&' :: encodePairsPlain rest

/-- A URL `http://host[path][?k1=v1&…]` of the restricted family. -/
def mkUrl (host path : List Char) (pairs : List (List Char × List Char)) : List Char :=
  "http://".data ++ host ++ path ++
    (if pairs = [] then [] else '?' :: encodePairsPlain pairs)

/-! ## Basic lemmas about the character and list helpers -/

theorem toNat_ofNat_valid (n : Nat) (h : n.isValidChar) : (Char.ofNat n).toNat = n := by
  unfold Char.ofNat
  rw [dif_pos h]
  rfl

theorem eq_of_toNat_eq (a b : Char) (h : a.toNat = b.toNat) : a = b := by
  rw [← Char.ofNat_toNat a, ← Char.ofNat_toNat b, h]

theorem pyLowerChar_toNat (c : Char) :
    (pyLowerChar c).toNat = if 65 ≤ c.toNat ∧ c.toNat ≤ 90 then c.toNat + 32 else c.toNat := by
  unfold pyLowerChar
  split
  · rename_i h
    exact toNat_ofNat_valid _ (Or.inl (by omega))
  · rfl

theorem pyLowerChar_idem (c : Char) : pyLowerChar (pyLowerChar c) = pyLowerChar c := by
  apply eq_of_toNat_eq
  rw [pyLowerChar_toNat, pyLowerChar_toNat]
  split_ifs <;> omega

theorem pyLower_idem (l : List Char) : pyLower (pyLower l) = pyLower l := by
  unfold pyLower
  rw [List.map_map]
  exact List.map_congr_left fun c _ => pyLowerChar_idem c

theorem pySplit_ne_nil (c : Char) (l : List Char) : pySplit c l ≠ [] := by
  cases l with
  | nil => simp [pySplit]
  | cons x xs =>
    unfold pySplit
    split
    · simp
    · split <;> simp

theorem pySplit_headD (c : Char) (l : List Char) :
    (pySplit c l).headD [] = l.takeWhile (fun x => x != c) := by
  induction l with
  | nil => rfl
  | cons x xs ih =>
    unfold pySplit
    by_cases h : x = c
    · subst h
      simp [List.takeWhile_cons]
    · obtain ⟨hh, tt, heq⟩ := List.exists_cons_of_ne_nil (pySplit_ne_nil c xs)
      rw [heq] at ih ⊢
      simp only [if_neg h, List.headD_cons] at ih ⊢
      rw [List.takeWhile_cons, if_pos (by simpa using h), ← ih]

theorem dropWhile_eq_self_of_head (p : Char → Bool) (l : List Char)
    (h : ∀ x, l.head? = some x → p x = false) : l.dropWhile p = l := by
  cases l with
  | nil => rfl
  | cons x xs => rw [List.dropWhile_cons, if_neg (by simp [h x rfl])]

theorem mem_of_head?_eq {x : Char} {l : List Char} (h : l.head? = some x) : x ∈ l := by
  cases l with
  | nil => exact Option.noConfusion h
  | cons a as =>
    rw [List.head?_cons, Option.some.injEq] at h
    exact h ▸ List.mem_cons_self a as

theorem pyStrip_eq_self (l : List Char) (h : ∀ c ∈ l, isPySpace c = false) :
    pyStrip l = l := by
  unfold pyStrip
  rw [dropWhile_eq_self_of_head _ _ (fun x hx => h x (mem_of_head?_eq hx)),
    dropWhile_eq_self_of_head _ _
      (fun x hx => h x (by simpa using mem_of_head?_eq hx)),
    List.reverse_reverse]

theorem splitOnFirst_eq_none (c : Char) (l : List Char) (h : c ∉ l) :
    splitOnFirst c l = none := by
  induction l with
  | nil => rfl
  | cons x xs ih =>
    simp only [splitOnFirst]
    rw [if_neg (by rintro rfl; exact h (by simp)), ih (fun hm => h (by simp [hm]))]
    rfl

theorem splitOnFirst_append (c : Char) (a b : List Char) (h : c ∉ a) :
    splitOnFirst c (a ++ c :: b) = some (a, b) := by
  induction a with
  | nil => simp [splitOnFirst]
  | cons x xs ih =>
    rw [List.cons_append]
    simp only [splitOnFirst]
    rw [if_neg (by rintro rfl; exact h (by simp))]
    rw [ih (fun hm => h (by simp [hm]))]
    rfl

/-! ## Claim C4 -/

/-- C4: for every unique key, `unique_key_to_request_id` at the default
length 15 returns a string of length exactly 15 containing none of `+`,
`/`, `=`.  The length-15 part needs the (always observed) fact that at
least 15 of the 43 base64 digest characters survive the stripping, which
is the hypothesis. -/
theorem claim_C4 (key : String)
    (h : 15 ≤ ((b64encode (sha256 (utf8Encode key.data))).filter
        (fun c => !(c == '+' || c == '/' || c == '='))).length) :
    (unique_key_to_request_id key 15).length = 15 ∧
      ∀ c ∈ (unique_key_to_request_id key 15).data, c ≠ '+' ∧ c ≠ '/' ∧ c ≠ '=' := by
  unfold unique_key_to_request_id
  constructor
  · show (List.take 15 _).length = 15
    rw [List.length_take]
    omega
  · intro c hc
    have hmem := List.mem_of_mem_take hc
    have hp := List.of_mem_filter hmem
    simp only [Bool.not_eq_true', Bool.or_eq_false_iff, beq_eq_false_iff_ne] at hp
    exact ⟨hp.1.1, hp.1.2, hp.2⟩

theorem claim_C4_witness :
    (unique_key_to_request_id "abc" 15).length = 15 ∧
      ∀ c ∈ (unique_key_to_request_id "abc" 15).data, c ≠ '+' ∧ c ≠ '/' ∧ c ≠ '=' :=
  claim_C4 "abc" (by decide)

/-! ## Claim C9 -/

/-- C9 counterexample: at `request_id_length = 100` (which exceeds the 41
characters left after stripping the base64 digest of `"abc"`), the function
neither raises nor documents anything — it silently returns the whole
41-character stripped digest, shorter than requested. -/
theorem claim_C9_counterexample :
    (unique_key_to_request_id "abc" 100).length = 41 ∧
      (unique_key_to_request_id "abc" 100).length < 100 := by
  constructor
  · decide
  · decide

/-- C9 (amended): `unique_key_to_request_id` performs no precondition check:
for every key and requested length the result is silently
`min request_id_length (stripped digest length)` characters long — when the
requested length exceeds what is available the result is simply shorter,
with no error raised. -/
theorem claim_C9 (key : String) (n : Nat) :
    (unique_key_to_request_id key n).length =
      min n ((b64encode (sha256 (utf8Encode key.data))).filter
        (fun c => !(c == '+' || c == '/' || c == '='))).length := by
  unfold unique_key_to_request_id
  show (List.take n _).length = _
  rw [List.length_take]

/-! ## Claim C1 -/

/-- C1 counterexample: the non-empty url `"/"` normalizes (without error) to
the empty string, so `compute_unique_key` returns the empty string — the
claimed "non-empty key for every non-empty url" fails. -/
theorem claim_C1_counterexample :
    ("/" : String) ≠ "" ∧ compute_unique_key "/" "GET" none false false none none = "" := by
  constructor
  · decide
  · rfl

/-- C1 (amended): `compute_unique_key` is total and on any normalization
error it falls back to the raw unmodified url, which is then the (non-empty)
key; but a non-empty url can normalize to the empty string (e.g. `"/"`), in
which case the key is empty. -/
theorem claim_C1 (url : String) (kf : Bool) (e : String)
    (h : normalize_url url kf = .error e) :
    compute_unique_key url "GET" none kf false none none = url ∧ url ≠ "" := by
  constructor
  · simp [compute_unique_key, normalizedUrlOrRaw, h]
  · rintro rfl
    cases kf
    · rw [show normalize_url "" false = Except.ok "" from rfl] at h
      exact Except.noConfusion h
    · rw [show normalize_url "" true = Except.ok "" from rfl] at h
      exact Except.noConfusion h

theorem claim_C1_witness :
    compute_unique_key "http://[x" "GET" none false false none none = "http://[x" ∧
      ("http://[x" : String) ≠ "" :=
  claim_C1 "http://[x" false "Invalid IPv6 URL" rfl

/-! ## Claim C2 -/

/-- C2 counterexample: a path ending in `//` loses both trailing slashes
(`rstrip('/')` removes every trailing slash), not just one as claimed. -/
theorem claim_C2_counterexample :
    normalize_url "http://x.com/p//" false = .ok "http://x.com/p" ∧
      normalize_url "http://x.com/p//" false ≠ .ok "http://x.com/p/" := by
  refine ⟨rfl, fun h => ?_⟩
  rw [show normalize_url "http://x.com/p//" false = Except.ok "http://x.com/p" from rfl] at h
  exact absurd (Except.ok.inj h) (by decide)

theorem pyRstripSlash_no_trailing (l : List Char) :
    (pyRstripSlash l).reverse.head?.all (fun c => c != '/') = true := by
  unfold pyRstripSlash
  rw [List.reverse_reverse]
  cases hd : (l.reverse.dropWhile (fun c => c == '/')) with
  | nil => rfl
  | cons x xs =>
    have hx : (x == '/') = false := by
      have := List.head?_dropWhile_not (fun c => c == '/') l.reverse
      rw [hd] at this
      simpa using this
    simp only [List.head?_cons, Option.all_some]
    simpa using hx

theorem pyRstripSlash_decomp (l : List Char) :
    ∃ n, l = pyRstripSlash l ++ List.replicate n '/' := by
  refine ⟨(l.reverse.takeWhile (fun c => c == '/')).length, ?_⟩
  unfold pyRstripSlash
  conv_lhs => rw [← List.reverse_reverse l, ← List.takeWhile_append_dropWhile
    (p := fun c => c == '/') (l := l.reverse)]
  rw [List.reverse_append]
  congr 1
  rw [← List.reverse_replicate]
  congr 1
  apply List.eq_replicate_of_mem
  intro b hb
  simpa using List.mem_takeWhile_imp hb

/-- C2 (amended): `normalize_url` removes every trailing `/` from the path
(`rstrip('/')`): the stripped path never ends in `/`, the removed suffix is
exactly a run of slashes, a path ending in `//` loses both slashes, and a
root path collapses to empty. -/
theorem claim_C2 :
    (∀ l : List Char, (pyRstripSlash l).reverse.head?.all (fun c => c != '/') = true ∧
        ∃ n, l = pyRstripSlash l ++ List.replicate n '/') ∧
      normalize_url "http://x.com/p//" false = .ok "http://x.com/p" ∧
      normalize_url "http://x.com/" false = .ok "http://x.com" :=
  ⟨fun l => ⟨pyRstripSlash_no_trailing l, pyRstripSlash_decomp l⟩, rfl, rfl⟩

/-! ## Claim C5 -/

theorem compute_key_inactive (url method : String) (payload : Option HttpPayload)
    (kf ext : Bool) (hp : extendedActive payload ext = false) :
    compute_unique_key url method payload kf ext none none =
      normalizedUrlOrRaw url kf := by
  unfold compute_unique_key
  cases payload with
  | none => cases ext <;> rfl
  | some pl =>
    simp only [extendedActive] at hp
    cases ext
    · rfl
    · simp_all

/-- C5: the method token only reaches the key in extended mode with a truthy
payload, where the key is `METHOD(short-hash):base`; otherwise the key is
exactly the base (normalized URL, or raw URL on failure), independent of the
method. -/
theorem claim_C5 :
    (∀ (url method : String) (pl : HttpPayload) (kf : Bool),
        payloadTruthy pl = true →
          compute_unique_key url method (some pl) kf true none none =
            String.mk (pyUpper method.data) ++ "(" ++
              compute_short_hash (payloadBytes pl) ++ "):" ++ normalizedUrlOrRaw url kf) ∧
    (∀ (url method : String) (payload : Option HttpPayload) (kf ext : Bool),
        extendedActive payload ext = false →
          compute_unique_key url method payload kf ext none none =
            normalizedUrlOrRaw url kf) ∧
    (∀ (url m₁ m₂ : String) (payload : Option HttpPayload) (kf ext : Bool),
        extendedActive payload ext = false →
          compute_unique_key url m₁ payload kf ext none none =
            compute_unique_key url m₂ payload kf ext none none) := by
  refine ⟨?_, ?_, ?_⟩
  · intro url method pl kf hp
    simp [compute_unique_key, hp]
  · exact compute_key_inactive
  · intro url m₁ m₂ payload kf ext hp
    rw [compute_key_inactive url m₁ payload kf ext hp,
      compute_key_inactive url m₂ payload kf ext hp]

theorem claim_C5_witness :
    compute_unique_key "http://x.com" "post" (some (.str "body")) false true none none =
        String.mk (pyUpper ("post" : String).data) ++ "(" ++
          compute_short_hash (payloadBytes (.str "body")) ++ "):" ++
          normalizedUrlOrRaw "http://x.com" false ∧
      compute_unique_key "http://x.com" "get" (some (.str "body")) false false none none =
        compute_unique_key "http://x.com" "put" (some (.str "body")) false false none none :=
  ⟨claim_C5.1 "http://x.com" "post" (.str "body") false (by decide),
   claim_C5.2.2 "http://x.com" "get" "put" (some (.str "body")) false false (by decide)⟩

/-! ## Claim C10 -/

/-- C10: a non-empty headers map plus a non-empty whitelist none of whose
names occur in the headers yields the key base followed by a lone trailing
`|`, which differs from the key of the same call with `headers=None`. -/
theorem claim_C10 (url method : String) (payload : Option HttpPayload) (kf ext : Bool)
    (hs : List (String × String)) (wl : List String)
    (h1 : hs ≠ []) (h2 : wl ≠ []) (h3 : ∀ h ∈ wl, lookupHeader h hs = none) :
    compute_unique_key url method payload kf ext (some hs) (some wl) =
        compute_unique_key url method payload kf ext none none ++ "|" ∧
      compute_unique_key url method payload kf ext (some hs) (some wl) ≠
        compute_unique_key url method payload kf ext none none := by
  have hparts : (wl.filterMap fun h => (lookupHeader h hs).map fun v => h ++ ":" ++ v) = [] := by
    rw [List.filterMap_eq_nil_iff]
    intro a ha
    rw [h3 a ha]
    rfl
  have hie : (hs.isEmpty || wl.isEmpty) = false := by
    simp [List.isEmpty_iff, h1, h2]
  have hkey : compute_unique_key url method payload kf ext (some hs) (some wl) =
      compute_unique_key url method payload kf ext none none ++ "|" := by
    conv_lhs => unfold compute_unique_key
    conv_rhs => unfold compute_unique_key
    simp only [hie, Bool.false_eq_true, if_false, hparts]
    rw [show String.intercalate "|" [] = "" from rfl, String.append_empty]
  refine ⟨hkey, ?_⟩
  intro heq
  rw [hkey] at heq
  have hl := congrArg String.length heq
  rw [String.length_append] at hl
  rw [show ("|" : String).length = 1 from rfl] at hl
  omega

theorem claim_C10_witness :
    compute_unique_key "http://x.com" "GET" none false false (some [("a", "1")]) (some ["z"]) =
        compute_unique_key "http://x.com" "GET" none false false none none ++ "|" ∧
      compute_unique_key "http://x.com" "GET" none false false (some [("a", "1")])
          (some ["z"]) ≠
        compute_unique_key "http://x.com" "GET" none false false none none :=
  claim_C10 "http://x.com" "GET" none false false [("a", "1")] ["z"]
    (by decide) (by decide) (by decide)

/-! ## Claim C6 -/

/-- C6: with non-empty headers and whitelist, the key appends (after a `|`)
the `|`-joined `name:value` entries in whitelist order; the key depends on
the headers map only through lookup (not its order), and whitelisted names
absent from the headers are silently skipped with no placeholder. -/
theorem claim_C6 :
    (∀ (url method : String) (payload : Option HttpPayload) (kf ext : Bool)
        (hs : List (String × String)) (wl : List String), hs ≠ [] → wl ≠ [] →
        compute_unique_key url method payload kf ext (some hs) (some wl) =
          compute_unique_key url method payload kf ext none none ++ "|" ++
            String.intercalate "|"
              (wl.filterMap fun h => (lookupHeader h hs).map fun v => h ++ ":" ++ v)) ∧
    (∀ (url method : String) (payload : Option HttpPayload) (kf ext : Bool)
        (hs₁ hs₂ : List (String × String)) (wl : List String), hs₁ ≠ [] → hs₂ ≠ [] →
        (∀ h, lookupHeader h hs₁ = lookupHeader h hs₂) →
        compute_unique_key url method payload kf ext (some hs₁) (some wl) =
          compute_unique_key url method payload kf ext (some hs₂) (some wl)) ∧
    (∀ (url method : String) (payload : Option HttpPayload) (kf ext : Bool)
        (hs : List (String × String)) (name : String) (wl₁ wl₂ : List String),
        hs ≠ [] → wl₁ ++ wl₂ ≠ [] → lookupHeader name hs = none →
        compute_unique_key url method payload kf ext (some hs) (some (wl₁ ++ name :: wl₂)) =
          compute_unique_key url method payload kf ext (some hs) (some (wl₁ ++ wl₂))) := by
  refine ⟨?_, ?_, ?_⟩
  · intro url method payload kf ext hs wl h1 h2
    have hie : (hs.isEmpty || wl.isEmpty) = false := by
      simp [List.isEmpty_iff, h1, h2]
    conv_lhs => unfold compute_unique_key
    conv_rhs => unfold compute_unique_key
    simp only [hie, Bool.false_eq_true, if_false]
  · intro url method payload kf ext hs₁ hs₂ wl h1 h2 hl
    have hie₁ : (hs₁.isEmpty || wl.isEmpty) = false ↔ (hs₂.isEmpty || wl.isEmpty) = false := by
      simp [List.isEmpty_iff, h1, h2]
    unfold compute_unique_key
    by_cases hw : wl.isEmpty
    · simp [hw, List.isEmpty_iff.mp hw]
    · have e1 : (hs₁.isEmpty || wl.isEmpty) = false := by
        simp [List.isEmpty_iff, h1, hw]
      have e2 : (hs₂.isEmpty || wl.isEmpty) = false := by
        simp [List.isEmpty_iff, h2, hw]
      simp only [e1, e2, Bool.false_eq_true, if_false]
      have : (wl.filterMap fun h => (lookupHeader h hs₁).map fun v => h ++ ":" ++ v) =
          wl.filterMap fun h => (lookupHeader h hs₂).map fun v => h ++ ":" ++ v := by
        apply List.filterMap_congr
        intro a _
        rw [hl a]
      rw [this]
  · intro url method payload kf ext hs name wl₁ wl₂ h1 h2 hn
    have e1 : (hs.isEmpty || (wl₁ ++ name :: wl₂).isEmpty) = false := by
      simp [List.isEmpty_iff, h1]
    have e2 : (hs.isEmpty || (wl₁ ++ wl₂).isEmpty) = false := by
      simp [List.isEmpty_iff, h1, h2]
    unfold compute_unique_key
    simp only [e1, e2, Bool.false_eq_true, if_false]
    rw [List.filterMap_append, List.filterMap_append, List.filterMap_cons, hn]
    rfl

theorem claim_C6_witness :
    compute_unique_key "http://x.com" "GET" none false false
        (some [("a", "1"), ("b", "2")]) (some ["b", "a"]) =
      compute_unique_key "http://x.com" "GET" none false false none none ++ "|" ++
        String.intercalate "|"
          ((["b", "a"] : List String).filterMap fun h =>
            (lookupHeader h [("a", "1"), ("b", "2")]).map fun v => h ++ ":" ++ v) :=
  claim_C6.1 "http://x.com" "GET" none false false [("a", "1"), ("b", "2")] ["b", "a"]
    (by decide) (by decide)

/-! ## Claim C8 -/

theorem map_eq_self_of_fixed {f : Char → Char} (l : List Char)
    (h : ∀ c ∈ l, f c = c) : l.map f = l := by
  induction l with
  | nil => rfl
  | cons x xs ih => rw [List.map_cons, h x (by simp), ih fun c hc => h c (by simp [hc])]

theorem pyLower_normalizeAssemble (p : ParseResult) (kf : Bool) :
    pyLower (normalizeAssemble p kf) = normalizeAssemble p kf := by
  unfold normalizeAssemble
  cases kf
  · simp only [Bool.false_eq_true, if_false]
    rw [pySplit_headD]
    apply map_eq_self_of_fixed
    intro c hc
    have hcm : c ∈ pyLower (urlunparse p.scheme p.netloc (pyRstripSlash p.path) p.params
        (codeSortedQuery p.query) p.fragment) := (List.takeWhile_sublist _).subset hc
    obtain ⟨d, _, rfl⟩ := List.mem_map.mp hcm
    exact pyLowerChar_idem d
  · exact pyLower_idem _

/-- C8: scheme/host casing and query order do not matter (the two spec
example URLs normalize identically), and every successful `normalize_url`
result is entirely lower-cased (lower-casing it again changes nothing). -/
theorem claim_C8 :
    normalize_url "HTTP://Example.com/?b=2&a=1" false =
        normalize_url "http://example.com/?a=1&b=2" false ∧
      ∀ (url : String) (kf : Bool) (s : String),
        normalize_url url kf = .ok s → String.mk (pyLower s.data) = s := by
  constructor
  · rfl
  · intro url kf s h
    unfold normalize_url normalize_url_chars at h
    cases hp : pyUrlparse (pyStrip url.data) with
    | error e =>
      rw [hp] at h
      exact Except.noConfusion h
    | ok p =>
      rw [hp] at h
      have hs : s = String.mk (normalizeAssemble p kf) := (Except.ok.inj h).symm
      subst hs
      rw [show (String.mk (normalizeAssemble p kf)).data = normalizeAssemble p kf from rfl,
        pyLower_normalizeAssemble]

theorem claim_C8_witness :
    String.mk (pyLower ("http://a" : String).data) = "http://a" :=
  claim_C8.2 "http://A" false "http://a" rfl

/-! ## Order lemmas for `lexLe` and `pairLe` -/

theorem lexLe_total : ∀ a b : List Char, lexLe a b = true ∨ lexLe b a = true
  | [], _ => Or.inl rfl
  | _ :: _, [] => Or.inr rfl
  | x :: as, y :: bs => by
    rcases Nat.lt_trichotomy x.toNat y.toNat with h | h | h
    · left
      simp [lexLe, h]
    · rcases lexLe_total as bs with ih | ih
      · left
        simp [lexLe, h, ih]
      · right
        simp [lexLe, h.symm, ih]
    · right
      simp [lexLe, h]

theorem lexLe_trans : ∀ a b c : List Char,
    lexLe a b = true → lexLe b c = true → lexLe a c = true
  | [], _, _, _, _ => rfl
  | _ :: _, [], _, hab, _ => by simp [lexLe] at hab
  | _ :: _, _ :: _, [], _, hbc => by simp [lexLe] at hbc
  | x :: as, y :: bs, z :: cs, hab, hbc => by
    simp only [lexLe, Bool.or_eq_true, Bool.and_eq_true, decide_eq_true_eq,
      beq_iff_eq] at hab hbc ⊢
    rcases hab with h1 | ⟨h1e, h1r⟩
    · rcases hbc with h2 | ⟨h2e, h2r⟩
      · exact Or.inl (Nat.lt_trans h1 h2)
      · exact Or.inl (by omega)
    · rcases hbc with h2 | ⟨h2e, h2r⟩
      · exact Or.inl (by omega)
      · exact Or.inr ⟨by omega, lexLe_trans as bs cs h1r h2r⟩

theorem lexLe_antisymm : ∀ a b : List Char,
    lexLe a b = true → lexLe b a = true → a = b
  | [], [], _, _ => rfl
  | [], _ :: _, _, hba => by simp [lexLe] at hba
  | _ :: _, [], hab, _ => by simp [lexLe] at hab
  | x :: as, y :: bs, hab, hba => by
    simp only [lexLe, Bool.or_eq_true, Bool.and_eq_true, decide_eq_true_eq,
      beq_iff_eq] at hab hba
    have hxy : x.toNat = y.toNat := by omega
    have hr : lexLe as bs = true := by
      rcases hab with h | ⟨_, h⟩
      · omega
      · exact h
    have hr2 : lexLe bs as = true := by
      rcases hba with h | ⟨_, h⟩
      · omega
      · exact h
    rw [eq_of_toNat_eq x y hxy, lexLe_antisymm as bs hr hr2]

instance : IsTotal (List Char) lexLeP := ⟨lexLe_total⟩

instance : IsTrans (List Char) lexLeP := ⟨lexLe_trans⟩

instance : IsAntisymm (List Char) lexLeP := ⟨lexLe_antisymm⟩

instance : IsTotal (List Char × List Char) pairLe := ⟨fun a b => lexLe_total a.1 b.1⟩

instance : IsTrans (List Char × List Char) pairLe :=
  ⟨fun a b c => lexLe_trans a.1 b.1 c.1⟩

/-! ## Association-list lemmas (`dict`, lookup, last occurrence) -/

theorem lookupD_eq_of_mem : ∀ {l : List (List Char × List Char)} {k v : List Char},
    (l.map Prod.fst).Nodup → (k, v) ∈ l → lookupD k l = v
  | [], _, _, _, hm => absurd hm (List.not_mem_nil _)
  | e :: rest, k, v, hnd, hm => by
    rw [List.map_cons, List.nodup_cons] at hnd
    rcases List.mem_cons.mp hm with h | h
    · rw [← h]
      simp [lookupD]
    · have hk : e.1 ≠ k := by
        rintro rfl
        exact hnd.1 (List.mem_map.mpr ⟨(e.1, v), h, rfl⟩)
      rw [lookupD, if_neg hk]
      exact lookupD_eq_of_mem hnd.2 h

theorem lookupD_eq_default : ∀ {l : List (List Char × List Char)} {k : List Char},
    k ∉ l.map Prod.fst → lookupD k l = []
  | [], _, _ => rfl
  | e :: rest, k, h => by
    rw [lookupD, if_neg (by rintro rfl; exact h (by simp)),
      lookupD_eq_default fun hm => h (by simp [hm])]

theorem lookupD_mem : ∀ {l : List (List Char × List Char)} {k : List Char},
    k ∈ l.map Prod.fst → (k, lookupD k l) ∈ l
  | [], _, h => absurd h (List.not_mem_nil _)
  | e :: rest, k, h => by
    by_cases hk : e.1 = k
    · rw [lookupD, if_pos hk, ← hk]
      exact List.mem_cons_self _ _
    · rw [lookupD, if_neg hk]
      have : k ∈ rest.map Prod.fst := by
        rcases List.mem_map.mp h with ⟨e', he', rfl⟩
        rcases List.mem_cons.mp he' with h' | h'
        · exact absurd (h' ▸ rfl) hk
        · exact List.mem_map.mpr ⟨e', h', rfl⟩
      exact List.mem_cons_of_mem _ (lookupD_mem this)

theorem lookupD_append (k : List Char) (a b : List (List Char × List Char)) :
    lookupD k (a ++ b) = if k ∈ a.map Prod.fst then lookupD k a else lookupD k b := by
  induction a with
  | nil => simp [lookupD]
  | cons e rest ih =>
    by_cases hk : e.1 = k
    · rw [List.cons_append, lookupD, if_pos hk, if_pos (by simp [hk]), lookupD, if_pos hk]
    · rw [List.cons_append, lookupD, if_neg hk, ih, lookupD, if_neg hk]
      by_cases hm : k ∈ rest.map Prod.fst
      · rw [if_pos hm, if_pos (by simp [hm])]
      · rw [if_neg hm, if_neg (by simp [hk, hm]; exact fun h => absurd h.symm hk)]

theorem lastVal_append_single (k : List Char) (l : List (List Char × List Char))
    (kv : List Char × List Char) :
    lastVal k (l ++ [kv]) = if kv.1 = k then kv.2 else lastVal k l := by
  unfold lastVal
  rw [List.reverse_append, List.reverse_singleton, List.singleton_append, lookupD]

theorem lastVal_cons (k : List Char) (kv : List Char × List Char)
    (l : List (List Char × List Char)) :
    lastVal k (kv :: l) = if k ∈ l.map Prod.fst then lastVal k l
      else if kv.1 = k then kv.2 else [] := by
  unfold lastVal
  rw [List.reverse_cons, lookupD_append]
  have : k ∈ l.reverse.map Prod.fst ↔ k ∈ l.map Prod.fst := by
    rw [List.map_reverse]
    exact List.mem_reverse
  by_cases hm : k ∈ l.map Prod.fst
  · rw [if_pos (this.mpr hm), if_pos hm]
  · rw [if_neg (fun h => hm (this.mp h)), if_neg hm, lookupD, lookupD]

theorem pyDict_append_single (l : List (List Char × List Char))
    (kv : List Char × List Char) :
    pyDict (l ++ [kv]) = dictUpsert (pyDict l) kv := by
  unfold pyDict
  rw [List.foldl_append]
  rfl

theorem keys_map_dictUpsert_of_present (m : List (List Char × List Char))
    (kv : List Char × List Char) (h : m.any (fun e => decide (e.1 = kv.1)) = true) :
    (dictUpsert m kv).map Prod.fst = m.map Prod.fst := by
  unfold dictUpsert
  rw [if_pos h, List.map_map]
  apply List.map_congr_left
  intro e _
  by_cases he : e.1 = kv.1 <;> simp [he]

theorem keys_map_dictUpsert_of_absent (m : List (List Char × List Char))
    (kv : List Char × List Char) (h : m.any (fun e => decide (e.1 = kv.1)) = false) :
    (dictUpsert m kv).map Prod.fst = m.map Prod.fst ++ [kv.1] := by
  unfold dictUpsert
  rw [if_neg (by simp [h]), List.map_append]
  rfl

theorem mem_keys_pyDict (l : List (List Char × List Char)) :
    ∀ k : List Char, k ∈ (pyDict l).map Prod.fst ↔ k ∈ l.map Prod.fst := by
  induction l using List.reverseRecOn with
  | nil => intro k; rfl
  | append_singleton l kv ih =>
    intro k
    rw [pyDict_append_single]
    cases hany : (pyDict l).any (fun e => decide (e.1 = kv.1)) with
    | true =>
      rw [keys_map_dictUpsert_of_present _ _ hany]
      have hin : kv.1 ∈ (pyDict l).map Prod.fst := by
        rcases List.any_eq_true.mp hany with ⟨e, he, hp⟩
        exact List.mem_map.mpr ⟨e, he, of_decide_eq_true hp⟩
      rw [List.map_append]
      constructor
      · intro hm
        exact List.mem_append_left _ ((ih k).mp hm)
      · intro hm
        rcases List.mem_append.mp hm with hm | hm
        · exact (ih k).mpr hm
        · have hk : k = kv.1 := by simpa using hm
          rw [hk]
          exact hin
    | false =>
      rw [keys_map_dictUpsert_of_absent _ _ hany, List.map_append]
      simp [List.mem_append, ih k]

theorem nodup_keys_pyDict (l : List (List Char × List Char)) :
    ((pyDict l).map Prod.fst).Nodup := by
  induction l using List.reverseRecOn with
  | nil => exact List.nodup_nil
  | append_singleton l kv ih =>
    rw [pyDict_append_single]
    cases hany : (pyDict l).any (fun e => decide (e.1 = kv.1)) with
    | true => rw [keys_map_dictUpsert_of_present _ _ hany]; exact ih
    | false =>
      rw [keys_map_dictUpsert_of_absent _ _ hany]
      have hni : kv.1 ∉ (pyDict l).map Prod.fst := by
        intro hm
        rcases List.mem_map.mp hm with ⟨e, he, hfst⟩
        have : (pyDict l).any (fun e => decide (e.1 = kv.1)) = true :=
          List.any_eq_true.mpr ⟨e, he, decide_eq_true hfst⟩
        rw [hany] at this
        exact Bool.noConfusion this
      exact List.Nodup.append ih (List.nodup_singleton _)
        (by simpa [List.disjoint_singleton] using hni)

theorem mem_pyDict (l : List (List Char × List Char)) :
    ∀ e : List Char × List Char,
      e ∈ pyDict l ↔ e.1 ∈ l.map Prod.fst ∧ e.2 = lastVal e.1 l := by
  induction l using List.reverseRecOn with
  | nil =>
    intro e
    simp [pyDict, lastVal, lookupD]
  | append_singleton l kv ih =>
    intro e
    rw [pyDict_append_single, lastVal_append_single, List.map_append]
    cases hany : (pyDict l).any (fun x => decide (x.1 = kv.1)) with
    | true =>
      have hin : kv.1 ∈ (pyDict l).map Prod.fst := by
        rcases List.any_eq_true.mp hany with ⟨x, hx, hp⟩
        exact List.mem_map.mpr ⟨x, hx, of_decide_eq_true hp⟩
      have hinl : kv.1 ∈ l.map Prod.fst := (mem_keys_pyDict l kv.1).mp hin
      unfold dictUpsert
      rw [if_pos hany]
      constructor
      · intro hm
        rcases List.mem_map.mp hm with ⟨x, hx, hupd⟩
        have hx2 := (ih x).mp hx
        by_cases hk : x.1 = kv.1
        · rw [if_pos hk] at hupd
          rw [← hupd]
          exact ⟨List.mem_append_left _ (show x.1 ∈ l.map Prod.fst from hk ▸ hinl),
            by rw [if_pos hk.symm]⟩
        · rw [if_neg hk] at hupd
          rw [← hupd]
          exact ⟨List.mem_append_left _ hx2.1,
            by rw [if_neg (by intro hh; exact hk hh.symm), hx2.2]⟩
      · rintro ⟨hmem, hval⟩
        by_cases hk : kv.1 = e.1
        · rw [if_pos hk] at hval
          have hkeys : e.1 ∈ (pyDict l).map Prod.fst :=
            (mem_keys_pyDict l e.1).mpr (hk ▸ hinl)
          refine List.mem_map.mpr ⟨(e.1, lookupD e.1 (pyDict l)), lookupD_mem hkeys, ?_⟩
          rw [if_pos hk.symm]
          rw [← hval]
        · have hmeml : e.1 ∈ l.map Prod.fst := by
            rcases List.mem_append.mp hmem with h | h
            · exact h
            · exact absurd (by simpa using h) (by intro hh; exact hk hh.symm)
          rw [if_neg hk] at hval
          refine List.mem_map.mpr ⟨e, (ih e).mpr ⟨hmeml, hval⟩, ?_⟩
          rw [if_neg (by intro hh; exact hk hh.symm)]
    | false =>
      have hnotin : kv.1 ∉ (pyDict l).map Prod.fst := by
        intro hm
        rcases List.mem_map.mp hm with ⟨x, hx, hfst⟩
        have : (pyDict l).any (fun x => decide (x.1 = kv.1)) = true :=
          List.any_eq_true.mpr ⟨x, hx, decide_eq_true hfst⟩
        rw [hany] at this
        exact Bool.noConfusion this
      have hnotinl : kv.1 ∉ l.map Prod.fst :=
        fun h => hnotin ((mem_keys_pyDict l kv.1).mpr h)
      unfold dictUpsert
      rw [if_neg (by simp [hany])]
      rw [List.mem_append, List.mem_singleton]
      constructor
      · rintro (hm | rfl)
        · have hx2 := (ih e).mp hm
          exact ⟨List.mem_append_left _ hx2.1,
            by rw [if_neg (by intro hh; exact hnotinl (hh ▸ hx2.1)), hx2.2]⟩
        · exact ⟨List.mem_append_right _ (by simp), by rw [if_pos rfl]⟩
      · rintro ⟨hmem, hval⟩
        by_cases hk : kv.1 = e.1
        · right
          rw [if_pos hk] at hval
          have : e = (e.1, e.2) := rfl
          rw [this, hval, ← hk]
        · left
          have hmeml : e.1 ∈ l.map Prod.fst := by
            rcases List.mem_append.mp hmem with h | h
            · exact h
            · exact absurd (by simpa using h) (by intro hh; exact hk hh.symm)
          rw [if_neg hk] at hval
          exact (ih e).mpr ⟨hmeml, hval⟩

theorem mem_specLastWins (l : List (List Char × List Char)) :
    ∀ e : List Char × List Char,
      e ∈ specLastWins l ↔ e.1 ∈ l.map Prod.fst ∧ e.2 = lastVal e.1 l := by
  induction l with
  | nil =>
    intro e
    simp [specLastWins, lastVal, lookupD]
  | cons kv rest ih =>
    intro e
    rw [List.map_cons, List.mem_cons, lastVal_cons]
    unfold specLastWins
    cases hc : (rest.map Prod.fst).contains kv.1 with
    | true =>
      have hkv : kv.1 ∈ rest.map Prod.fst := by simpa using hc
      rw [if_pos (by simp [hc]), ih e]
      constructor
      · rintro ⟨hm, hv⟩
        exact ⟨Or.inr hm, by rw [if_pos hm, hv]⟩
      · rintro ⟨hm, hv⟩
        have hm2 : e.1 ∈ rest.map Prod.fst := by
          rcases hm with h | h
          · rw [h]; exact hkv
          · exact h
        rw [if_pos hm2] at hv
        exact ⟨hm2, hv⟩
    | false =>
      have hkv : kv.1 ∉ rest.map Prod.fst := by simpa using hc
      rw [if_neg (by simp [hc]), List.mem_cons, ih e]
      constructor
      · rintro (rfl | ⟨hm, hv⟩)
        · exact ⟨Or.inl rfl, by rw [if_neg hkv, if_pos rfl]⟩
        · exact ⟨Or.inr hm, by rw [if_pos hm, hv]⟩
      · rintro ⟨hm, hv⟩
        by_cases hmr : e.1 ∈ rest.map Prod.fst
        · rw [if_pos hmr] at hv
          exact Or.inr ⟨hmr, hv⟩
        · have h1 : e.1 = kv.1 := by
            rcases hm with h | h
            · exact h
            · exact absurd h hmr
          rw [if_neg hmr, if_pos h1.symm] at hv
          left
          have he : e = (e.1, e.2) := rfl
          rw [he, hv, h1]

theorem nodup_keys_specLastWins (l : List (List Char × List Char)) :
    ((specLastWins l).map Prod.fst).Nodup := by
  induction l with
  | nil => exact List.nodup_nil
  | cons kv rest ih =>
    unfold specLastWins
    cases hc : (rest.map Prod.fst).contains kv.1 with
    | true => rw [if_pos (by simp [hc])]; exact ih
    | false =>
      rw [if_neg (by simp [hc]), List.map_cons, List.nodup_cons]
      refine ⟨?_, ih⟩
      intro hm
      rcases List.mem_map.mp hm with ⟨e, he, hfst⟩
      have := ((mem_specLastWins rest e).mp he).1
      rw [hfst] at this
      exact absurd this (by simpa using hc)

theorem pyDict_perm_specLastWins (l : List (List Char × List Char)) :
    (pyDict l).Perm (specLastWins l) := by
  apply (List.perm_ext_iff_of_nodup
    (List.Nodup.of_map Prod.fst (nodup_keys_pyDict l))
    (List.Nodup.of_map Prod.fst (nodup_keys_specLastWins l))).mpr
  intro e
  rw [mem_pyDict l e, mem_specLastWins l e]

/-! ## Canonical query pairs -/

theorem list_map_eq_self_of_fixed {α : Type} {f : α → α} :
    ∀ l : List α, (∀ c ∈ l, f c = c) → l.map f = l
  | [], _ => rfl
  | x :: xs, h => by
    rw [List.map_cons, h x (by simp),
      list_map_eq_self_of_fixed xs fun c hc => h c (by simp [hc])]

theorem map_fst_insertionSort_pairs (x : List (List Char × List Char)) :
    (List.insertionSort pairLe x).map Prod.fst = pySorted (x.map Prod.fst) := by
  unfold pySorted
  exact List.map_insertionSort pairLe lexLeP Prod.fst x fun a _ b _ => Iff.rfl

theorem canonPairs_eq_insertionSort (x : List (List Char × List Char))
    (hnd : (x.map Prod.fst).Nodup) :
    canonPairs x = List.insertionSort pairLe x := by
  unfold canonPairs
  rw [← map_fst_insertionSort_pairs x, List.map_map]
  apply list_map_eq_self_of_fixed
  intro e he
  have hex : e ∈ x := (List.perm_insertionSort pairLe x).subset he
  show (e.1, lookupD e.1 x) = e
  rw [lookupD_eq_of_mem hnd hex]

theorem lookupD_perm {x y : List (List Char × List Char)} (hp : x.Perm y)
    (hnd : (x.map Prod.fst).Nodup) (k : List Char) : lookupD k x = lookupD k y := by
  by_cases hm : k ∈ x.map Prod.fst
  · have h2 : (k, lookupD k x) ∈ y := hp.subset (lookupD_mem hm)
    have hndy : (y.map Prod.fst).Nodup := ((hp.map Prod.fst).nodup_iff).mp hnd
    exact (lookupD_eq_of_mem hndy h2).symm
  · have hm2 : k ∉ y.map Prod.fst := fun h => hm ((hp.map Prod.fst).mem_iff.mpr h)
    rw [lookupD_eq_default hm, lookupD_eq_default hm2]

theorem canonPairs_perm {x y : List (List Char × List Char)} (hp : x.Perm y)
    (hnd : (x.map Prod.fst).Nodup) : canonPairs x = canonPairs y := by
  unfold canonPairs
  have hkeys : pySorted (x.map Prod.fst) = pySorted (y.map Prod.fst) := by
    unfold pySorted
    exact List.eq_of_perm_of_sorted
      ((List.perm_insertionSort _ _).trans
        ((hp.map Prod.fst).trans (List.perm_insertionSort _ _).symm))
      (List.sorted_insertionSort _ _) (List.sorted_insertionSort _ _)
  rw [hkeys]
  apply List.map_congr_left
  intro k _
  rw [lookupD_perm hp hnd k]

/-! ## Claim C7 -/

/-- C7: the query pipeline of `normalize_url` (`dict(parse_qsl(q))`, drop
`utm_` keys, sort keys, re-encode) computes exactly the spec's description:
decode keeping only the last occurrence of each repeated key, discard
`utm_`-prefixed keys, sort the pairs by key byte-wise, percent-re-encode. -/
theorem claim_C7 : ∀ q : List Char, codeSortedQuery q = specCanonicalQuery q := by
  intro q
  unfold codeSortedQuery specCanonicalQuery
  have hperm : ((pyDict (parse_qsl q)).filter
        (fun kv => !(['u', 't', 'm', '_'].isPrefixOf kv.1))).Perm
      ((specLastWins (parse_qsl q)).filter
        (fun kv => !(['u', 't', 'm', '_'].isPrefixOf kv.1))) :=
    (pyDict_perm_specLastWins (parse_qsl q)).filter _
  have hndF : (((pyDict (parse_qsl q)).filter
      (fun kv => !(['u', 't', 'm', '_'].isPrefixOf kv.1))).map Prod.fst).Nodup :=
    List.Nodup.sublist (List.Sublist.map Prod.fst (List.filter_sublist _))
      (nodup_keys_pyDict _)
  have hndG : (((specLastWins (parse_qsl q)).filter
      (fun kv => !(['u', 't', 'm', '_'].isPrefixOf kv.1))).map Prod.fst).Nodup :=
    List.Nodup.sublist (List.Sublist.map Prod.fst (List.filter_sublist _))
      (nodup_keys_specLastWins _)
  show urlencode (canonPairs ((pyDict (parse_qsl q)).filter
      (fun kv => !(['u', 't', 'm', '_'].isPrefixOf kv.1)))) =
    urlencode (List.insertionSort pairLe ((specLastWins (parse_qsl q)).filter
      (fun kv => !(['u', 't', 'm', '_'].isPrefixOf kv.1))))
  rw [canonPairs_perm hperm hndF, canonPairs_eq_insertionSort _ hndG]

/-! ## Character-class lemmas for the restricted family -/

theorem ne_char_of_toNat_ne (n : Nat) {c d : Char} (hd : d.toNat = n)
    (h : c.toNat ≠ n) : c ≠ d := fun he => h (by rw [he, hd])

theorem plainChar_toNat {c : Char} (h : plainChar c) :
    (97 ≤ c.toNat ∧ c.toNat ≤ 122) ∨ (48 ≤ c.toNat ∧ c.toNat ≤ 57) := h

theorem hostChar_toNat {c : Char} (h : hostChar c) :
    (97 ≤ c.toNat ∧ c.toNat ≤ 122) ∨ (48 ≤ c.toNat ∧ c.toNat ≤ 57) ∨ c.toNat = 46 := by
  rcases h with h | rfl
  · rcases h with h | h
    · exact Or.inl h
    · exact Or.inr (Or.inl h)
  · exact Or.inr (Or.inr rfl)

theorem pathChar_toNat {c : Char} (h : pathChar c) :
    (97 ≤ c.toNat ∧ c.toNat ≤ 122) ∨ (48 ≤ c.toNat ∧ c.toNat ≤ 57) ∨
      c.toNat = 47 ∨ c.toNat = 46 := by
  rcases h with h | rfl | rfl
  · rcases h with h | h
    · exact Or.inl h
    · exact Or.inr (Or.inl h)
  · exact Or.inr (Or.inr (Or.inl rfl))
  · exact Or.inr (Or.inr (Or.inr rfl))

theorem urlChar_toNat {c : Char} (h : urlChar c) :
    (97 ≤ c.toNat ∧ c.toNat ≤ 122) ∨ (48 ≤ c.toNat ∧ c.toNat ≤ 57) ∨
      c.toNat = 46 ∨ c.toNat = 47 ∨ c.toNat = 58 ∨ c.toNat = 63 ∨
      c.toNat = 38 ∨ c.toNat = 61 := by
  rcases h with h | rfl | rfl | rfl | rfl | rfl | rfl
  · rcases h with h | h
    · exact Or.inl h
    · exact Or.inr (Or.inl h)
  · exact Or.inr (Or.inr (Or.inl rfl))
  · exact Or.inr (Or.inr (Or.inr (Or.inl rfl)))
  · exact Or.inr (Or.inr (Or.inr (Or.inr (Or.inl rfl))))
  · exact Or.inr (Or.inr (Or.inr (Or.inr (Or.inr (Or.inl rfl)))))
  · exact Or.inr (Or.inr (Or.inr (Or.inr (Or.inr (Or.inr (Or.inl rfl))))))
  · exact Or.inr (Or.inr (Or.inr (Or.inr (Or.inr (Or.inr (Or.inr rfl))))))

theorem hostChar_urlChar {c : Char} (h : hostChar c) : urlChar c := by
  rcases h with h | rfl
  · exact Or.inl h
  · exact Or.inr (Or.inl rfl)

theorem pathChar_urlChar {c : Char} (h : pathChar c) : urlChar c := by
  rcases h with h | rfl | rfl
  · exact Or.inl h
  · exact Or.inr (Or.inr (Or.inl rfl))
  · exact Or.inr (Or.inl rfl)

theorem plainChar_urlChar {c : Char} (h : plainChar c) : urlChar c := Or.inl h

theorem urlChar_not_pySpace {c : Char} (h : urlChar c) : isPySpace c = false := by
  have ht := urlChar_toNat h
  simp only [isPySpace, Bool.or_eq_false_iff, beq_eq_false_iff_ne]
  omega

theorem urlChar_keep_unsafe {c : Char} (h : urlChar c) :
    (!(c == '\t' || c == '\r' || c == '\n')) = true := by
  have ht := urlChar_toNat h
  simp only [Bool.not_eq_eq_eq_not, Bool.not_true, Bool.or_eq_false_iff,
    beq_eq_false_iff_ne]
  exact ⟨⟨ne_char_of_toNat_ne 9 rfl (by omega), ne_char_of_toNat_ne 13 rfl (by omega)⟩,
    ne_char_of_toNat_ne 10 rfl (by omega)⟩

theorem urlChar_gt32 {c : Char} (h : urlChar c) : 32 < c.toNat := by
  have ht := urlChar_toNat h
  omega

theorem urlChar_no_upper {c : Char} (h : urlChar c) :
    ¬(65 ≤ c.toNat ∧ c.toNat ≤ 90) := by
  have ht := urlChar_toNat h
  omega

theorem urlChar_ne_hash {c : Char} (h : urlChar c) : c ≠ '#' := by
  have ht := urlChar_toNat h
  exact ne_char_of_toNat_ne 35 rfl (by omega)

theorem urlChar_ne_semi {c : Char} (h : urlChar c) : c ≠ ';' := by
  have ht := urlChar_toNat h
  exact ne_char_of_toNat_ne 59 rfl (by omega)

theorem hostChar_not_delim {c : Char} (h : hostChar c) : isNetlocDelim c = false := by
  have ht := hostChar_toNat h
  simp only [isNetlocDelim, Bool.or_eq_false_iff, beq_eq_false_iff_ne]
  exact ⟨⟨ne_char_of_toNat_ne 47 rfl (by omega), ne_char_of_toNat_ne 63 rfl (by omega)⟩,
    ne_char_of_toNat_ne 35 rfl (by omega)⟩

theorem hostChar_no_bracket {c : Char} (h : hostChar c) : c ≠ '[' ∧ c ≠ ']' := by
  have ht := hostChar_toNat h
  exact ⟨ne_char_of_toNat_ne 91 rfl (by omega), ne_char_of_toNat_ne 93 rfl (by omega)⟩

theorem plainChar_lt128 {c : Char} (h : plainChar c) : c.toNat < 128 := by
  have ht := plainChar_toNat h
  omega

theorem plainChar_safe {c : Char} (h : plainChar c) : alwaysSafeByte c.toNat = true := by
  have ht := plainChar_toNat h
  simp only [alwaysSafeByte, Bool.or_eq_true, Bool.and_eq_true, decide_eq_true_eq,
    beq_iff_eq]
  omega

/-! ## List helper lemmas for the restricted family -/

theorem contains_eq_false {l : List Char} {a : Char} (h : a ∉ l) :
    l.contains a = false := by
  cases hc : l.contains a
  · rfl
  · exact absurd (List.elem_iff.mp hc) h

theorem takeWhile_append_of (p : Char → Bool) :
    ∀ (a b : List Char), (∀ c ∈ a, p c = true) →
      (∀ x, b.head? = some x → p x = false) → (a ++ b).takeWhile p = a
  | [], b, _, hb => by
    cases b with
    | nil => rfl
    | cons x xs => simp [List.takeWhile_cons, hb x rfl]
  | c :: a, b, ha, hb => by
    rw [List.cons_append, List.takeWhile_cons, ha c (by simp), if_pos rfl,
      takeWhile_append_of p a b (fun c hc => ha c (by simp [hc])) hb]

theorem dropWhile_append_of (p : Char → Bool) :
    ∀ (a b : List Char), (∀ c ∈ a, p c = true) →
      (∀ x, b.head? = some x → p x = false) → (a ++ b).dropWhile p = b
  | [], b, _, hb => by
    cases b with
    | nil => rfl
    | cons x xs => simp [List.dropWhile_cons, hb x rfl]
  | c :: a, b, ha, hb => by
    rw [List.cons_append, List.dropWhile_cons, ha c (by simp), if_pos rfl,
      dropWhile_append_of p a b (fun c hc => ha c (by simp [hc])) hb]

theorem takeWhile_eq_self_of (p : Char → Bool) :
    ∀ l : List Char, (∀ c ∈ l, p c = true) → l.takeWhile p = l
  | [], _ => rfl
  | c :: l, h => by
    rw [List.takeWhile_cons, h c (by simp), if_pos rfl,
      takeWhile_eq_self_of p l fun c hc => h c (by simp [hc])]

theorem pySplit_not_mem (c : Char) : ∀ l : List Char, c ∉ l → pySplit c l = [l]
  | [], _ => rfl
  | x :: xs, h => by
    unfold pySplit
    rw [if_neg (by rintro rfl; exact h (by simp)),
      pySplit_not_mem c xs fun hm => h (by simp [hm])]

theorem pySplit_append_cons (c : Char) : ∀ (a b : List Char), c ∉ a →
    pySplit c (a ++ c :: b) = a :: pySplit c b
  | [], b, _ => by
    rw [List.nil_append]
    conv_lhs => unfold pySplit
    rw [if_pos rfl]
  | x :: xs, b, h => by
    rw [List.cons_append]
    conv_lhs => unfold pySplit
    rw [if_neg (by rintro rfl; exact h (by simp)),
      pySplit_append_cons c xs b fun hm => h (by simp [hm])]

/-! ## Computation of `urlsplit` on the restricted family -/

theorem splitScheme_http (rest : List Char) :
    splitScheme ("http".data ++ ':' :: rest) = ("http".data, rest) := by
  unfold splitScheme
  rw [splitOnFirst_append ':' "http".data rest (by decide)]
  rfl

theorem splitNetloc_slashes (tail : List Char) :
    splitNetloc ('/' :: '/' :: tail) =
      (tail.takeWhile (fun c => !isNetlocDelim c),
       tail.dropWhile (fun c => !isNetlocDelim c)) := by
  rfl

theorem splitFragment_no_hash (l : List Char) (h : '#' ∉ l) :
    splitFragment l = (l, []) := by
  unfold splitFragment
  rw [splitOnFirst_eq_none '#' l h]

theorem splitQuery_no_query (l : List Char) (h : '?' ∉ l) :
    splitQuery l = (l, []) := by
  unfold splitQuery
  rw [splitOnFirst_eq_none '?' l h]

theorem splitQuery_append (a b : List Char) (h : '?' ∉ a) :
    splitQuery (a ++ '?' :: b) = (a, b) := by
  unfold splitQuery
  rw [splitOnFirst_append '?' a b h]

theorem urlsplit_clean (url : List Char)
    (h0 : url.dropWhile (fun c => decide (c.toNat ≤ 32)) = url)
    (h1 : url.filter (fun c => !(c == '\t' || c == '\r' || c == '\n')) = url)
    (h2 : bracketMismatch (splitNetloc (splitScheme url).2).1 = false) :
    urlsplit url = .ok ⟨(splitScheme url).1, (splitNetloc (splitScheme url).2).1,
      (splitQuery (splitFragment (splitNetloc (splitScheme url).2).2).1).1,
      (splitQuery (splitFragment (splitNetloc (splitScheme url).2).2).1).2,
      (splitFragment (splitNetloc (splitScheme url).2).2).2⟩ := by
  unfold urlsplit
  simp only [h0, h1, h2, Bool.false_eq_true, if_false]

/-! ## Round-trip lemmas on plain (escape-free) data -/

theorem plain_not_mem (d : Char) (n : Nat) (hd : d.toNat = n)
    (hn : ¬((97 ≤ n ∧ n ≤ 122) ∨ (48 ≤ n ∧ n ≤ 57)))
    {l : List Char} (h : ∀ c ∈ l, plainChar c) : d ∉ l := fun hm => by
  have ht := plainChar_toNat (h d hm)
  rw [hd] at ht
  exact hn ht

theorem unquotePlus_plain (l : List Char) (h : ∀ c ∈ l, plainChar c) :
    unquotePlus l = l := by
  unfold unquotePlus
  have hmap : l.map (fun c => if c = '+' then ' ' else c) = l :=
    list_map_eq_self_of_fixed l fun c hc => by
      rw [if_neg]
      have ht := plainChar_toNat (h c hc)
      exact ne_char_of_toNat_ne 43 rfl (by omega)
  rw [hmap]
  unfold pyUnquote
  rw [splitOnFirst_eq_none '%' l (plain_not_mem '%' 37 rfl (by omega) h)]
  rfl

theorem encodePairsPlain_one (kv : List Char × List Char) :
    encodePairsPlain [kv] = kv.1 ++ '=' :: kv.2 := by
  rw [encodePairsPlain]

theorem encodePairsPlain_two (kv kv2 : List Char × List Char)
    (rest : List (List Char × List Char)) :
    encodePairsPlain (kv :: kv2 :: rest) =
      (kv.1 ++ '=' :: kv.2) ++ '&' :: encodePairsPlain (kv2 :: rest) := by
  rw [encodePairsPlain]
  all_goals simp

theorem mem_token {kv : List Char × List Char} {c : Char}
    (hm : c ∈ kv.1 ++ '=' :: kv.2) : c ∈ kv.1 ∨ c = '=' ∨ c ∈ kv.2 := by
  rcases List.mem_append.mp hm with h | h
  · exact Or.inl h
  · rcases List.mem_cons.mp h with h | h
    · exact Or.inr (Or.inl h)
    · exact Or.inr (Or.inr h)

theorem amp_not_mem_token {kv : List Char × List Char}
    (h1 : ∀ c ∈ kv.1, plainChar c) (h2 : ∀ c ∈ kv.2, plainChar c) :
    '&' ∉ kv.1 ++ '=' :: kv.2 := by
  intro hm
  rcases mem_token hm with h | h | h
  · exact plain_not_mem '&' 38 rfl (by omega) h1 h
  · exact absurd h (by decide)
  · exact plain_not_mem '&' 38 rfl (by omega) h2 h

theorem parse_qsl_token {kv : List Char × List Char} (_hk1 : kv.1 ≠ []) (hk2 : kv.2 ≠ [])
    (h1 : ∀ c ∈ kv.1, plainChar c) (h2 : ∀ c ∈ kv.2, plainChar c) :
    (if (kv.1 ++ '=' :: kv.2).isEmpty = true then none
      else match splitOnFirst '=' (kv.1 ++ '=' :: kv.2) with
        | none => none
        | some (n, v) =>
          if v.isEmpty = true then none else some (unquotePlus n, unquotePlus v)) =
      some kv := by
  rw [if_neg (by cases hk : kv.1 ++ '=' :: kv.2 with
    | nil => exact absurd hk (by simp)
    | cons a l => simp)]
  rw [splitOnFirst_append '=' kv.1 kv.2 (plain_not_mem '=' 61 rfl (by omega) h1)]
  show (if kv.2.isEmpty = true then none
    else some (unquotePlus kv.1, unquotePlus kv.2)) = some kv
  rw [if_neg (by simp [List.isEmpty_iff, hk2])]
  rw [unquotePlus_plain kv.1 h1, unquotePlus_plain kv.2 h2]

theorem parse_qsl_encodePlain : ∀ pairs, goodPairs pairs →
    parse_qsl (encodePairsPlain pairs) = pairs
  | [], _ => rfl
  | [kv], h => by
    have hk := h.2 kv (by simp)
    rw [encodePairsPlain_one]
    unfold parse_qsl
    rw [pySplit_not_mem '&' _ (amp_not_mem_token hk.2.2.1 hk.2.2.2)]
    rw [List.filterMap_cons]
    rw [show (if (kv.1 ++ '=' :: kv.2).isEmpty = true then none
      else match splitOnFirst '=' (kv.1 ++ '=' :: kv.2) with
        | none => none
        | some (n, v) =>
          if v.isEmpty = true then none else some (unquotePlus n, unquotePlus v)) =
      some kv from parse_qsl_token hk.1 hk.2.1 hk.2.2.1 hk.2.2.2]
    rfl
  | kv :: kv2 :: rest, h => by
    have hk := h.2 kv (by simp)
    have htail : goodPairs (kv2 :: rest) := by
      refine ⟨?_, fun e he => h.2 e (by simp [he])⟩
      have := h.1
      rw [List.map_cons, List.nodup_cons] at this
      exact this.2
    rw [encodePairsPlain_two]
    unfold parse_qsl
    rw [pySplit_append_cons '&' _ _ (amp_not_mem_token hk.2.2.1 hk.2.2.2)]
    rw [List.filterMap_cons]
    rw [show (if (kv.1 ++ '=' :: kv.2).isEmpty = true then none
      else match splitOnFirst '=' (kv.1 ++ '=' :: kv.2) with
        | none => none
        | some (n, v) =>
          if v.isEmpty = true then none else some (unquotePlus n, unquotePlus v)) =
      some kv from parse_qsl_token hk.1 hk.2.1 hk.2.2.1 hk.2.2.2]
    show kv :: parse_qsl (encodePairsPlain (kv2 :: rest)) = kv :: kv2 :: rest
    rw [parse_qsl_encodePlain (kv2 :: rest) htail]

theorem pyDict_eq_self : ∀ pairs : List (List Char × List Char),
    (pairs.map Prod.fst).Nodup → pyDict pairs = pairs := by
  intro pairs
  induction pairs using List.reverseRecOn with
  | nil => intro _; rfl
  | append_singleton l kv ih =>
    intro hnd
    rw [List.map_append, List.nodup_append] at hnd
    rw [pyDict_append_single, ih hnd.1]
    unfold dictUpsert
    rw [if_neg]
    intro hany
    rcases List.any_eq_true.mp hany with ⟨e, he, hp⟩
    have hkm : kv.1 ∈ l.map Prod.fst := List.mem_map.mpr ⟨e, he, of_decide_eq_true hp⟩
    exact hnd.2.2 hkm (by simp)

theorem filter_utm_eq_self (pairs : List (List Char × List Char))
    (h : ∀ kv ∈ pairs, ∀ c ∈ kv.1, plainChar c) :
    pairs.filter (fun kv => !(['u', 't', 'm', '_'].isPrefixOf kv.1)) = pairs := by
  rw [List.filter_eq_self]
  intro kv hkv
  rw [Bool.not_eq_true']
  cases hp : ['u', 't', 'm', '_'].isPrefixOf kv.1
  · rfl
  · exfalso
    obtain ⟨t, ht⟩ := List.isPrefixOf_iff_prefix.mp hp
    have hmem : '_' ∈ kv.1 := by rw [← ht]; simp
    exact plain_not_mem '_' 95 rfl (by omega) (h kv hkv) hmem

theorem pyQuote_plain : ∀ l : List Char, (∀ c ∈ l, plainChar c) → pyQuote [] l = l
  | [], _ => rfl
  | c :: l, h => by
    have hc := h c (by simp)
    show (utf8Encode (c :: l)).flatMap (quoteByte []) = c :: l
    have henc : utf8EncodeChar c = [c.toNat] := by
      simp [utf8EncodeChar, plainChar_lt128 hc]
    rw [show utf8Encode (c :: l) = utf8EncodeChar c ++ utf8Encode l from
      List.flatMap_cons _ _ _, henc, List.flatMap_append]
    have hq : quoteByte [] c.toNat = [Char.ofNat c.toNat] := by
      simp [quoteByte, plainChar_safe hc]
    rw [show ([c.toNat] : List Nat).flatMap (quoteByte []) = quoteByte [] c.toNat ++ [] from rfl]
    rw [hq, Char.ofNat_toNat]
    rw [show ([c] ++ [] : List Char) = [c] from rfl]
    rw [show ([c] : List Char) ++ (utf8Encode l).flatMap (quoteByte []) =
      c :: (utf8Encode l).flatMap (quoteByte []) from rfl]
    rw [show (utf8Encode l).flatMap (quoteByte []) = pyQuote [] l from rfl,
      pyQuote_plain l fun d hd => h d (by simp [hd])]

theorem quote_plus_plain (l : List Char) (h : ∀ c ∈ l, plainChar c) :
    quote_plus l = l := by
  unfold quote_plus
  rw [contains_eq_false (plain_not_mem ' ' 32 rfl (by omega) h)]
  exact pyQuote_plain l h

theorem intercalate_amp_cons_cons (x y : List Char) (ys : List (List Char)) :
    List.intercalate ['&'] (x :: y :: ys) = x ++ '&' :: List.intercalate ['&'] (y :: ys) := by
  simp [List.intercalate, List.intersperse]

theorem urlencode_plain : ∀ pairs : List (List Char × List Char),
    (∀ kv ∈ pairs, (∀ c ∈ kv.1, plainChar c) ∧ ∀ c ∈ kv.2, plainChar c) →
    urlencode pairs = encodePairsPlain pairs
  | [], _ => rfl
  | [kv], h => by
    have hk := h kv (by simp)
    rw [encodePairsPlain_one]
    unfold urlencode
    rw [List.map_cons, List.map_nil]
    rw [quote_plus_plain kv.1 hk.1, quote_plus_plain kv.2 hk.2]
    simp [List.intercalate]
  | kv :: kv2 :: rest, h => by
    have hk := h kv (by simp)
    rw [encodePairsPlain_two]
    unfold urlencode
    rw [List.map_cons, List.map_cons, intercalate_amp_cons_cons]
    rw [quote_plus_plain kv.1 hk.1, quote_plus_plain kv.2 hk.2]
    congr 1
    show '&' :: urlencode (kv2 :: rest) = '&' :: encodePairsPlain (kv2 :: rest)
    rw [urlencode_plain (kv2 :: rest) fun e he => h e (by simp [he])]

/-! ## `canonPairs` on well-formed pairs -/

theorem pySorted_mem {l : List (List Char)} {k : List Char} :
    k ∈ pySorted l ↔ k ∈ l := List.mem_insertionSort lexLeP

theorem pySorted_nodup {l : List (List Char)} (h : l.Nodup) : (pySorted l).Nodup :=
  ((List.perm_insertionSort lexLeP l).nodup_iff).mpr h

theorem map_fst_canonPairs (x : List (List Char × List Char)) :
    (canonPairs x).map Prod.fst = pySorted (x.map Prod.fst) := by
  unfold canonPairs
  rw [List.map_map]
  exact list_map_eq_self_of_fixed _ fun k _ => rfl

theorem canonPairs_nodup (x : List (List Char × List Char))
    (h : (x.map Prod.fst).Nodup) : ((canonPairs x).map Prod.fst).Nodup := by
  rw [map_fst_canonPairs]
  exact pySorted_nodup h

theorem goodPairs_canonPairs (x : List (List Char × List Char)) (h : goodPairs x) :
    goodPairs (canonPairs x) := by
  refine ⟨canonPairs_nodup x h.1, ?_⟩
  intro kv hkv
  unfold canonPairs at hkv
  rcases List.mem_map.mp hkv with ⟨k, hk, rfl⟩
  have hkx : k ∈ x.map Prod.fst := pySorted_mem.mp hk
  exact h.2 _ (lookupD_mem hkx)

theorem canonPairs_ne_nil {x : List (List Char × List Char)} (h : x ≠ []) :
    canonPairs x ≠ [] := by
  intro he
  have hlen := congrArg List.length he
  simp only [canonPairs, pySorted, List.length_map, List.length_insertionSort,
    List.length_nil] at hlen
  exact h (List.length_eq_zero.mp hlen)

theorem canonPairs_nil : canonPairs [] = [] := rfl

theorem canonPairs_idem (x : List (List Char × List Char))
    (hnd : (x.map Prod.fst).Nodup) : canonPairs (canonPairs x) = canonPairs x := by
  conv_lhs => rw [show canonPairs (canonPairs x) =
    (pySorted ((canonPairs x).map Prod.fst)).map
      (fun k => (k, lookupD k (canonPairs x))) from rfl]
  rw [map_fst_canonPairs, show pySorted (pySorted (x.map Prod.fst)) =
    pySorted (x.map Prod.fst) from
      List.Sorted.insertionSort_eq (List.sorted_insertionSort lexLeP _)]
  have hfun : ∀ k ∈ pySorted (x.map Prod.fst),
      (fun k => (k, lookupD k (canonPairs x))) k =
        (fun k => (k, lookupD k x)) k := by
    intro k hk
    have hmem : (k, lookupD k x) ∈ canonPairs x := by
      unfold canonPairs
      exact List.mem_map.mpr ⟨k, hk, rfl⟩
    simp only [Prod.mk.injEq, true_and]
    exact lookupD_eq_of_mem (canonPairs_nodup x hnd) hmem
  rw [List.map_congr_left hfun]
  rfl

theorem encodePairsPlain_ne_nil : ∀ {pairs : List (List Char × List Char)},
    pairs ≠ [] → encodePairsPlain pairs ≠ []
  | [], h => absurd rfl h
  | [kv], _ => by rw [encodePairsPlain_one]; simp
  | kv :: kv2 :: rest, _ => by rw [encodePairsPlain_two]; simp

/-! ## `rstrip('/')` facts -/

theorem pyRstripSlash_subset (l : List Char) : ∀ c ∈ pyRstripSlash l, c ∈ l := by
  intro c hc
  obtain ⟨n, hdec⟩ := pyRstripSlash_decomp l
  rw [hdec]
  exact List.mem_append_left _ hc

theorem pyRstripSlash_head (path : List Char)
    (hp : path = [] ∨ path.head? = some '/') :
    pyRstripSlash path = [] ∨ (pyRstripSlash path).head? = some '/' := by
  cases hexp : pyRstripSlash path with
  | nil => exact Or.inl rfl
  | cons a l =>
    right
    rcases hp with rfl | hp
    · exact absurd hexp (by rw [show pyRstripSlash [] = [] from rfl]; simp)
    · obtain ⟨n, hdec⟩ := pyRstripSlash_decomp path
      rw [hdec, hexp, List.cons_append, List.head?_cons] at hp
      rw [List.head?_cons]
      exact hp

theorem pyRstripSlash_idem (l : List Char) :
    pyRstripSlash (pyRstripSlash l) = pyRstripSlash l := by
  show ((pyRstripSlash l).reverse.dropWhile (fun c => c == '/')).reverse = pyRstripSlash l
  rw [show (pyRstripSlash l).reverse = l.reverse.dropWhile (fun c => c == '/') from
    List.reverse_reverse _]
  rw [dropWhile_eq_self_of_head _ _ (fun x hx => by
    have hh := List.head?_dropWhile_not (fun c => c == '/') l.reverse
    rw [hx] at hh
    simpa using hh)]
  rfl

theorem goodPath_pyRstripSlash {path : List Char} (hp : goodPath path) :
    goodPath (pyRstripSlash path) :=
  ⟨pyRstripSlash_head path hp.1, fun c hc => hp.2 c (pyRstripSlash_subset path c hc)⟩

/-! ## `urlunsplit` on the restricted family -/

theorem urlunsplit_http (host path q : List Char) (hh : host ≠ [])
    (hp : path = [] ∨ path.head? = some '/') :
    urlunsplit "http".data host path q [] =
      "http://".data ++ host ++ path ++ (if q = [] then [] else '?' :: q) := by
  have hnp : ¬(path ≠ [] ∧ path.headD '/' ≠ '/') := by
    rintro ⟨hne, hhd⟩
    rcases hp with rfl | hp
    · exact hne rfl
    · cases path with
      | nil => exact hne rfl
      | cons a l =>
        rw [List.head?_cons] at hp
        rw [List.headD_cons] at hhd
        exact hhd (Option.some.inj hp)
  simp only [urlunsplit]
  rw [if_pos (Or.inl hh), if_neg hnp, if_pos (show "http".data ≠ [] by decide),
    if_neg (show ¬(([] : List Char) ≠ []) by simp)]
  by_cases hq : q = []
  · rw [if_neg (show ¬(q ≠ []) by simpa using hq), if_pos hq, List.append_nil]
    simp [List.append_assoc]
  · rw [if_pos hq, if_neg hq]
    simp [List.append_assoc]

/-! ## Character membership in restricted-family URLs -/

theorem mem_encodePairsPlain :
    ∀ {pairs : List (List Char × List Char)},
      (∀ kv ∈ pairs, (∀ c ∈ kv.1, plainChar c) ∧ ∀ c ∈ kv.2, plainChar c) →
      ∀ c ∈ encodePairsPlain pairs, urlChar c
  | [], _, c, hc => absurd hc (List.not_mem_nil c)
  | [kv], h, c, hc => by
    rw [encodePairsPlain_one] at hc
    have hk := h kv (by simp)
    rcases mem_token hc with hc | rfl | hc
    · exact plainChar_urlChar (hk.1 c hc)
    · exact Or.inr (Or.inr (Or.inr (Or.inr (Or.inr (Or.inr rfl)))))
    · exact plainChar_urlChar (hk.2 c hc)
  | kv :: kv2 :: rest, h, c, hc => by
    rw [encodePairsPlain_two] at hc
    rcases List.mem_append.mp hc with hc | hc
    · have hk := h kv (by simp)
      rcases mem_token hc with hc | rfl | hc
      · exact plainChar_urlChar (hk.1 c hc)
      · exact Or.inr (Or.inr (Or.inr (Or.inr (Or.inr (Or.inr rfl)))))
      · exact plainChar_urlChar (hk.2 c hc)
    · rcases List.mem_cons.mp hc with rfl | hc
      · exact Or.inr (Or.inr (Or.inr (Or.inr (Or.inr (Or.inl rfl)))))
      · exact mem_encodePairsPlain (fun e he => h e (by simp [he])) c hc

theorem mem_qopt_urlChar {pairs : List (List Char × List Char)}
    (h : ∀ kv ∈ pairs, (∀ c ∈ kv.1, plainChar c) ∧ ∀ c ∈ kv.2, plainChar c) :
    ∀ c ∈ (if pairs = [] then [] else '?' :: encodePairsPlain pairs), urlChar c := by
  intro c hc
  by_cases hpe : pairs = []
  · rw [if_pos hpe] at hc
    exact absurd hc (List.not_mem_nil c)
  · rw [if_neg hpe] at hc
    rcases List.mem_cons.mp hc with rfl | hc
    · exact Or.inr (Or.inr (Or.inr (Or.inr (Or.inl rfl))))
    · exact mem_encodePairsPlain h c hc

theorem mem_mkUrl_urlChar {host path : List Char}
    {pairs : List (List Char × List Char)}
    (hh : ∀ c ∈ host, hostChar c) (hp : ∀ c ∈ path, pathChar c)
    (hq : ∀ kv ∈ pairs, (∀ c ∈ kv.1, plainChar c) ∧ ∀ c ∈ kv.2, plainChar c) :
    ∀ c ∈ mkUrl host path pairs, urlChar c := by
  intro c hc
  unfold mkUrl at hc
  rcases List.mem_append.mp hc with hc | hc
  · rcases List.mem_append.mp hc with hc | hc
    · rcases List.mem_append.mp hc with hc | hc
      · exact (by decide : ∀ c ∈ "http://".data, urlChar c) c hc
      · exact hostChar_urlChar (hh c hc)
    · exact pathChar_urlChar (hp c hc)
  · exact mem_qopt_urlChar hq c hc

theorem pyLower_eq_self (l : List Char) (h : ∀ c ∈ l, urlChar c) :
    pyLower l = l :=
  list_map_eq_self_of_fixed l fun c hc => by
    unfold pyLowerChar
    rw [if_neg]
    exact urlChar_no_upper (h c hc)

theorem headD_pySplit_hash (l : List Char) (h : '#' ∉ l) :
    (pySplit '#' l).headD [] = l := by
  rw [pySplit_headD]
  apply takeWhile_eq_self_of
  intro c hc
  rw [bne_iff_ne, ne_eq]
  rintro rfl
  exact h hc

/-! ## `urlsplit` and `pyUrlparse` on the restricted family -/

theorem urlsplit_family (host path qtail : List Char)
    (hhostc : ∀ c ∈ host, hostChar c)
    (hpathc : ∀ c ∈ path, pathChar c)
    (hph : path = [] ∨ path.head? = some '/')
    (hqt : ∀ c ∈ qtail, urlChar c)
    (hqh : qtail = [] ∨ qtail.head? = some '?') :
    urlsplit ("http".data ++ ':' :: ('/' :: '/' :: (host ++ (path ++ qtail)))) =
      .ok ⟨"http".data, host, (splitQuery (path ++ qtail)).1,
        (splitQuery (path ++ qtail)).2, []⟩ := by
  have hall : ∀ c ∈ "http".data ++ ':' :: ('/' :: '/' :: (host ++ (path ++ qtail))),
      urlChar c := by
    intro c hc
    rcases List.mem_append.mp hc with hc | hc
    · exact (by decide : ∀ c ∈ "http".data, urlChar c) c hc
    · rcases List.mem_cons.mp hc with rfl | hc
      · exact Or.inr (Or.inr (Or.inr (Or.inl rfl)))
      · rcases List.mem_cons.mp hc with rfl | hc
        · exact Or.inr (Or.inr (Or.inl rfl))
        · rcases List.mem_cons.mp hc with rfl | hc
          · exact Or.inr (Or.inr (Or.inl rfl))
          · rcases List.mem_append.mp hc with hc | hc
            · exact hostChar_urlChar (hhostc c hc)
            · rcases List.mem_append.mp hc with hc | hc
              · exact pathChar_urlChar (hpathc c hc)
              · exact hqt c hc
  have hnohash : '#' ∉ path ++ qtail := by
    intro hm
    rcases List.mem_append.mp hm with hm | hm
    · exact urlChar_ne_hash (pathChar_urlChar (hpathc _ hm)) rfl
    · exact urlChar_ne_hash (hqt _ hm) rfl
  have h0 : ("http".data ++ ':' :: ('/' :: '/' :: (host ++ (path ++ qtail)))).dropWhile
      (fun c => decide (c.toNat ≤ 32)) =
      "http".data ++ ':' :: ('/' :: '/' :: (host ++ (path ++ qtail))) :=
    dropWhile_eq_self_of_head _ _ fun x hx => by
      have h32 := urlChar_gt32 (hall x (mem_of_head?_eq hx))
      exact decide_eq_false (by omega)
  have h1 : ("http".data ++ ':' :: ('/' :: '/' :: (host ++ (path ++ qtail)))).filter
      (fun c => !(c == '\t' || c == '\r' || c == '\n')) =
      "http".data ++ ':' :: ('/' :: '/' :: (host ++ (path ++ qtail))) :=
    List.filter_eq_self.mpr fun c hc => urlChar_keep_unsafe (hall c hc)
  have htake : ∀ c ∈ host, (!isNetlocDelim c) = true := fun c hc => by
    rw [hostChar_not_delim (hhostc c hc)]
    rfl
  have hheadb : ∀ x, (path ++ qtail).head? = some x → (!isNetlocDelim x) = false := by
    intro x hx
    have hx' : x = '/' ∨ x = '?' := by
      cases path with
      | cons a l =>
        rw [List.cons_append, List.head?_cons, Option.some.injEq] at hx
        rcases hph with h' | h'
        · exact absurd h' (by simp)
        · rw [List.head?_cons, Option.some.injEq] at h'
          exact Or.inl (hx ▸ h')
      | nil =>
        rw [List.nil_append] at hx
        rcases hqh with h' | h'
        · rw [h'] at hx
          exact absurd hx (by simp)
        · rw [h', Option.some.injEq] at hx
          exact Or.inr hx.symm
    rcases hx' with rfl | rfl <;> rfl
  have hsch : splitScheme ("http".data ++ ':' :: ('/' :: '/' :: (host ++ (path ++ qtail)))) =
      ("http".data, '/' :: '/' :: (host ++ (path ++ qtail))) := splitScheme_http _
  have hsch1 : (splitScheme ("http".data ++ ':' ::
      ('/' :: '/' :: (host ++ (path ++ qtail))))).1 = "http".data := by rw [hsch]
  have hsch2 : (splitScheme ("http".data ++ ':' ::
      ('/' :: '/' :: (host ++ (path ++ qtail))))).2 =
      '/' :: '/' :: (host ++ (path ++ qtail)) := by rw [hsch]
  have hnet : splitNetloc ('/' :: '/' :: (host ++ (path ++ qtail))) =
      (host, path ++ qtail) := by
    rw [splitNetloc_slashes]
    rw [takeWhile_append_of _ host (path ++ qtail) htake hheadb,
      dropWhile_append_of _ host (path ++ qtail) htake hheadb]
  have hnet1 : (splitNetloc (splitScheme ("http".data ++ ':' ::
      ('/' :: '/' :: (host ++ (path ++ qtail))))).2).1 = host := by
    rw [hsch2, hnet]
  have hnet2 : (splitNetloc (splitScheme ("http".data ++ ':' ::
      ('/' :: '/' :: (host ++ (path ++ qtail))))).2).2 = path ++ qtail := by
    rw [hsch2, hnet]
  have hbm : bracketMismatch host = false := by
    unfold bracketMismatch
    rw [contains_eq_false (fun hm => (hostChar_no_bracket (hhostc _ hm)).1 rfl),
      contains_eq_false (fun hm => (hostChar_no_bracket (hhostc _ hm)).2 rfl)]
    rfl
  have hfrag : splitFragment (path ++ qtail) = (path ++ qtail, []) :=
    splitFragment_no_hash _ hnohash
  rw [urlsplit_clean _ h0 h1 (by rw [hnet1]; exact hbm)]
  rw [hsch1, hnet1, hnet2, hfrag]

theorem pyUrlparse_ok_noparams (url : List Char) (p : SplitResult)
    (hs : urlsplit url = .ok p)
    (hc : ¬(usesParams.contains p.scheme ∧ p.path.contains ';')) :
    pyUrlparse url = .ok ⟨p.scheme, p.netloc, p.path, [], p.query, p.fragment⟩ := by
  simp only [pyUrlparse, hs]
  rw [if_neg hc]

/-! ## `normalize_url` on the restricted family -/

theorem normalize_mkUrl (host path : List Char)
    (pairs : List (List Char × List Char)) (kf : Bool)
    (hh : goodHost host) (hp : goodPath path) (hq : goodPairs pairs) :
    normalize_url_chars (mkUrl host path pairs) kf =
      .ok (mkUrl host (pyRstripSlash path) (canonPairs pairs)) := by
  have hhostc := hh.2
  have hpathc := hp.2
  have hqplain : ∀ kv ∈ pairs, (∀ c ∈ kv.1, plainChar c) ∧ ∀ c ∈ kv.2, plainChar c :=
    fun kv hkv => ⟨(hq.2 kv hkv).2.2.1, (hq.2 kv hkv).2.2.2⟩
  have hurl : ∀ c ∈ mkUrl host path pairs, urlChar c :=
    mem_mkUrl_urlChar hhostc hpathc hqplain
  have hstrip : pyStrip (mkUrl host path pairs) = mkUrl host path pairs :=
    pyStrip_eq_self _ fun c hc => urlChar_not_pySpace (hurl c hc)
  have hsemi : ';' ∉ path := fun hm =>
    urlChar_ne_semi (pathChar_urlChar (hpathc ';' hm)) rfl
  have hqm : '?' ∉ path := fun hm => by
    have ht := pathChar_toNat (hpathc '?' hm)
    rw [show ('?').toNat = 63 from rfl] at ht
    omega
  have hrpath : ∀ c ∈ pyRstripSlash path, pathChar c :=
    fun c hc => hpathc c (pyRstripSlash_subset path c hc)
  have hrhead := pyRstripSlash_head path hp.1
  have hshape : mkUrl host path pairs =
      "http".data ++ ':' :: ('/' :: '/' :: (host ++ (path ++
        (if pairs = [] then [] else '?' :: encodePairsPlain pairs)))) := by
    show "http://".data ++ host ++ path ++ _ = _
    rw [List.append_assoc, List.append_assoc]
    rfl
  by_cases hpe : pairs = []
  · subst hpe
    rw [if_pos rfl, List.append_nil] at hshape
    have hus := urlsplit_family host path [] hhostc hpathc hp.1
      (fun c hc => absurd hc (List.not_mem_nil c)) (Or.inl rfl)
    simp only [List.append_nil, splitQuery_no_query path hqm] at hus
    have hpu : pyUrlparse (mkUrl host path []) =
        .ok ⟨"http".data, host, path, [], [], []⟩ := by
      rw [hshape]
      exact pyUrlparse_ok_noparams _ ⟨"http".data, host, path, [], []⟩ hus
        (fun hand => by
          have hcon := hand.2
          rw [contains_eq_false hsemi] at hcon
          exact Bool.noConfusion hcon)
    simp only [normalize_url_chars, hstrip, hpu]
    refine congrArg Except.ok ?_
    have hunp : urlunparse "http".data host (pyRstripSlash path) []
        (codeSortedQuery []) [] = mkUrl host (pyRstripSlash path) [] := by
      rw [show codeSortedQuery [] = [] from rfl]
      unfold urlunparse
      rw [if_neg (show ¬(([] : List Char) ≠ []) by simp),
        urlunsplit_http host (pyRstripSlash path) [] hh.1 hrhead,
        if_pos rfl]
      rfl
    have hrmem : ∀ c ∈ mkUrl host (pyRstripSlash path) [], urlChar c :=
      mem_mkUrl_urlChar hhostc hrpath (fun kv hkv => absurd hkv (List.not_mem_nil kv))
    simp only [normalizeAssemble]
    rw [hunp, pyLower_eq_self _ hrmem]
    cases kf with
    | true =>
      rw [if_pos rfl]
      rfl
    | false =>
      rw [if_neg (fun h => Bool.noConfusion h)]
      exact headD_pySplit_hash _ fun hm => urlChar_ne_hash (hrmem '#' hm) rfl
  · rw [if_neg hpe] at hshape
    have hqtc : ∀ c ∈ '?' :: encodePairsPlain pairs, urlChar c := by
      intro c hc
      rcases List.mem_cons.mp hc with rfl | hc
      · exact Or.inr (Or.inr (Or.inr (Or.inr (Or.inl rfl))))
      · exact mem_encodePairsPlain hqplain c hc
    have hus := urlsplit_family host path ('?' :: encodePairsPlain pairs)
      hhostc hpathc hp.1 hqtc (Or.inr rfl)
    simp only [splitQuery_append path (encodePairsPlain pairs) hqm] at hus
    have hpu : pyUrlparse (mkUrl host path pairs) =
        .ok ⟨"http".data, host, path, [], encodePairsPlain pairs, []⟩ := by
      rw [hshape]
      exact pyUrlparse_ok_noparams _
        ⟨"http".data, host, path, encodePairsPlain pairs, []⟩ hus
        (fun hand => by
          have hcon := hand.2
          rw [contains_eq_false hsemi] at hcon
          exact Bool.noConfusion hcon)
    simp only [normalize_url_chars, hstrip, hpu]
    refine congrArg Except.ok ?_
    have hcgood := goodPairs_canonPairs pairs hq
    have hcplain : ∀ kv ∈ canonPairs pairs,
        (∀ c ∈ kv.1, plainChar c) ∧ ∀ c ∈ kv.2, plainChar c :=
      fun kv hkv => ⟨(hcgood.2 kv hkv).2.2.1, (hcgood.2 kv hkv).2.2.2⟩
    have hcne : canonPairs pairs ≠ [] := canonPairs_ne_nil hpe
    have hene : encodePairsPlain (canonPairs pairs) ≠ [] := encodePairsPlain_ne_nil hcne
    have hcsq : codeSortedQuery (encodePairsPlain pairs) =
        encodePairsPlain (canonPairs pairs) := by
      show urlencode (canonPairs ((pyDict (parse_qsl (encodePairsPlain pairs))).filter
          fun kv => !(['u', 't', 'm', '_'].isPrefixOf kv.1))) = _
      rw [parse_qsl_encodePlain pairs hq, pyDict_eq_self pairs hq.1,
        filter_utm_eq_self pairs (fun kv hkv => (hq.2 kv hkv).2.2.1)]
      exact urlencode_plain (canonPairs pairs) hcplain
    have hunp : urlunparse "http".data host (pyRstripSlash path) []
        (codeSortedQuery (encodePairsPlain pairs)) [] =
        mkUrl host (pyRstripSlash path) (canonPairs pairs) := by
      rw [hcsq]
      unfold urlunparse
      rw [if_neg (show ¬(([] : List Char) ≠ []) by simp),
        urlunsplit_http host (pyRstripSlash path) _ hh.1 hrhead,
        if_neg hene]
      show _ = "http://".data ++ host ++ pyRstripSlash path ++
        (if canonPairs pairs = [] then [] else '?' :: encodePairsPlain (canonPairs pairs))
      rw [if_neg hcne]
    have hrmem : ∀ c ∈ mkUrl host (pyRstripSlash path) (canonPairs pairs), urlChar c :=
      mem_mkUrl_urlChar hhostc hrpath hcplain
    simp only [normalizeAssemble]
    rw [hunp, pyLower_eq_self _ hrmem]
    cases kf with
    | true => rw [if_pos rfl]
    | false =>
      rw [if_neg (fun h => Bool.noConfusion h)]
      exact headD_pySplit_hash _ fun hm => urlChar_ne_hash (hrmem '#' hm) rfl

/-- C3 counterexample: `normalize_url` is not idempotent.  The first pass
keeps the query-string characters of the already-lower-cased URL but
lower-cases the key `B` only in the final full-string `lower()`, after
sorting; the second pass then sorts the now-lower-cased `b` differently, so
applying `normalize_url` to its own output changes the string again. -/
theorem claim_C3_counterexample :
    normalize_url "http://x.com/?B=1&a=2" false = .ok "http://x.com?b=1&a=2" ∧
      normalize_url "http://x.com?b=1&a=2" false = .ok "http://x.com?a=2&b=1" ∧
      ("http://x.com?a=2&b=1" : String) ≠ "http://x.com?b=1&a=2" :=
  ⟨rfl, rfl, by decide⟩

/-- C3 (amended): `normalize_url` is idempotent on the restricted family of
URLs `http://host path ?k1=v1&...` whose host, path and query pairs are
already lower-case, escape-free and with pairwise-distinct keys: one
application yields `http://host rstrip(path) ?sorted-pairs`, and a second
application returns that same string unchanged. -/
theorem claim_C3 (host path : List Char) (pairs : List (List Char × List Char))
    (kf : Bool) (hh : goodHost host) (hp : goodPath path) (hq : goodPairs pairs) :
    normalize_url ⟨mkUrl host path pairs⟩ kf =
        .ok ⟨mkUrl host (pyRstripSlash path) (canonPairs pairs)⟩ ∧
      normalize_url ⟨mkUrl host (pyRstripSlash path) (canonPairs pairs)⟩ kf =
        .ok ⟨mkUrl host (pyRstripSlash path) (canonPairs pairs)⟩ := by
  constructor
  · show (normalize_url_chars (mkUrl host path pairs) kf).map
      (fun l => String.mk l) = _
    rw [normalize_mkUrl host path pairs kf hh hp hq]
    rfl
  · show (normalize_url_chars (mkUrl host (pyRstripSlash path) (canonPairs pairs)) kf).map
      (fun l => String.mk l) = _
    have h2 := normalize_mkUrl host (pyRstripSlash path) (canonPairs pairs) kf hh
      (goodPath_pyRstripSlash hp) (goodPairs_canonPairs pairs hq)
    rw [pyRstripSlash_idem, canonPairs_idem pairs hq.1] at h2
    rw [h2]
    rfl

/-- Witness for `claim_C3` at `host = "x.com"`, `path = "/p/"`,
`pairs = [(b, 2), (a, 1)]`: normalization gives `http://x.com/p?a=1&b=2`
and re-normalizing returns it unchanged. -/
theorem claim_C3_witness :
    normalize_url ⟨mkUrl "x.com".data "/p/".data
        [("b".data, "2".data), ("a".data, "1".data)]⟩ false =
      .ok ⟨mkUrl "x.com".data (pyRstripSlash "/p/".data)
        (canonPairs [("b".data, "2".data), ("a".data, "1".data)])⟩ ∧
    normalize_url ⟨mkUrl "x.com".data (pyRstripSlash "/p/".data)
        (canonPairs [("b".data, "2".data), ("a".data, "1".data)])⟩ false =
      .ok ⟨mkUrl "x.com".data (pyRstripSlash "/p/".data)
        (canonPairs [("b".data, "2".data), ("a".data, "1".data)])⟩ :=
  claim_C3 "x.com".data "/p/".data [("b".data, "2".data), ("a".data, "1".data)] false
    (by decide) (by decide) (by decide)

end Crawlee
